import Mathlib

/-!
Shallow embedding of the `ink` storage binary heap
(`core/src/storage2/collections/binary_heap/{mod.rs, children_vector.rs}`).

Modelling conventions:
* Machine integers (`u32`) are modelled as `Nat`; the capacity assertion of
  `ChildrenVector::push` is kept explicitly against `u32MAX`, and the index
  computations of `sift_down` whose `u32` result can exceed `u32MAX` are
  modelled with checked semantics: a result above `u32MAX` is a panic
  (`none`), as in builds with `overflow-checks` enabled, the standard
  configuration for ink! contracts. (A build with wrapping arithmetic would
  instead reduce such a result modulo `2^32` and go on to compare and swap
  positions that are not parent and child; that behaviour is noted where
  relevant, not modelled.) All other arithmetic of the two files stays below
  `u32MAX`: `sift_up` only computes `(pos - 1) / 2`, and every `+ 1` is
  guarded by a bound on the operand.
* Fallible code is modelled in `Option`: a returned `none` at the outer level
  of a state-transforming operation models a Rust panic (a failed `assert!`
  or `.expect(..)`); where the Rust function itself returns `Option<T>`, that
  option appears inside the outer `Option`.
* Writing through a Rust `&mut` reference obtained from `get_child_mut` is
  modelled by the explicit write-back helper `ChildrenVector.set_child`.
* The `while` loops of `sift_up` / `sift_down` are modelled with an explicit
  fuel argument that the call sites instantiate with a provably sufficient
  bound; exhausted fuel yields `none` and is proved unreachable.
* The modules `children.rs` and `elements.rs` of this directory are not part
  of the given sources; the small items taken from them (`Children`,
  `get_children_storage_index`, `get_child_pos`, and `Elements` being the
  children vector) are modelled from the spec and marked as such.
-/

namespace Ink

/-- Value of `core::u32::MAX`, the capacity bound asserted by
`ChildrenVector::push`. -/
def u32MAX : Nat := 4294967295

/-- Modelled from the spec: missing module `children.rs`. Spec §3: a Cell holds
"slot₀, slot₁, each an optional Element, plus cached occupancy"; the cached
occupancy is required to equal the number of present slots, so it is modelled
as the derived function `Children.count`. -/
structure Children (α : Type) where
  first : Option α
  second : Option α
deriving DecidableEq

/-- Modelled from the spec: constructor `Children::new(a, b)` of the missing
`children.rs`. -/
def Children.new (a b : Option α) : Children α := ⟨a, b⟩

/-- Modelled from the spec: slot read of a Cell; position 0 is slot₀,
position 1 is slot₁. -/
def Children.child (c : Children α) (pos : Nat) : Option α :=
  if pos = 0 then c.first else c.second

/-- Modelled from the spec: writing a Cell slot (the write-back of a
`child_mut` reference). -/
def Children.set_child (c : Children α) (pos : Nat) (v : Option α) : Children α :=
  if pos = 0 then { c with first := v } else { c with second := v }

/-- Modelled from the spec: occupancy of a Cell, "the number of present
slots" (spec §3). -/
def Children.count (c : Children α) : Nat :=
  (if c.first.isSome then 1 else 0) + (if c.second.isSome then 1 else 0)

/-- Modelled from the spec: missing `children.rs` index math, "cell=index/2"
(spec §4.1). -/
def get_children_storage_index (index : Nat) : Nat := index / 2

/-- Modelled from the spec: missing `children.rs` index math, "slot=index%2"
(spec §4.1). -/
def get_child_pos (index : Nat) : Nat := index % 2

/-- The `ChildrenVector` of `children_vector.rs`: cached element count `len`
(a `Lazy<u32>` behaving "as a plain mutable 32-bit unsigned integer", spec §6)
plus the storage vector of `Children` cells. -/
structure ChildrenVector (α : Type) where
  len : Nat
  children : List (Children α)
deriving DecidableEq

/-- Result of `ChildrenVector::get_child`: the borrowed slot content. -/
structure ChildInfo (α : Type) where
  child : Option α
deriving DecidableEq

/-- Result of `ChildrenVector::get_child_mut`: the borrowed slot content plus
the occupancy of its cell (captured before any mutation). -/
structure ChildInfoMut (α : Type) where
  child : Option α
  child_count : Nat
deriving DecidableEq

/-- Constructor `ChildrenVector::new`. -/
def ChildrenVector.new : ChildrenVector α := ⟨0, []⟩

/-- Method `ChildrenVector::is_empty`: `self.len() == 0`. -/
def ChildrenVector.is_empty (cv : ChildrenVector α) : Bool := cv.len == 0

/-- Method `ChildrenVector::get_child`. -/
def ChildrenVector.get_child (cv : ChildrenVector α) (index : Nat) :
    Option (ChildInfo α) :=
  let storage_index := get_children_storage_index index
  let child_pos := get_child_pos index
  match cv.children[storage_index]? with
  | none => none
  | some c => some ⟨c.child child_pos⟩

/-- Method `ChildrenVector::get_child_mut` (read part; `child_count` is the
cell occupancy before mutation, as in the source). -/
def ChildrenVector.get_child_mut (cv : ChildrenVector α) (index : Nat) :
    Option (ChildInfoMut α) :=
  let storage_index := get_children_storage_index index
  let child_pos := get_child_pos index
  match cv.children[storage_index]? with
  | none => none
  | some c => some ⟨c.child child_pos, c.count⟩

/-- Write-back through the `&mut Option<T>` of a `ChildInfoMut`: store `v` in
the slot `index` resolves to. A missing cell leaves the vector unchanged; every
use is preceded by a successful `get_child_mut` on the same index. -/
def ChildrenVector.set_child (cv : ChildrenVector α) (index : Nat)
    (v : Option α) : ChildrenVector α :=
  let storage_index := get_children_storage_index index
  match cv.children[storage_index]? with
  | none => cv
  | some c =>
      { cv with
        children := cv.children.set storage_index
          (c.set_child (get_child_pos index) v) }

/-- Method `ChildrenVector::get`: `self.get_child(index)?.child.as_ref()`. -/
def ChildrenVector.get (cv : ChildrenVector α) (index : Nat) : Option α :=
  match cv.get_child index with
  | none => none
  | some info => info.child

/-- Method `ChildrenVector::get_mut`: `self.get_child_mut(index)?.child.as_mut()`
(the referenced value; obtaining the reference performs no write). -/
def ChildrenVector.get_mut (cv : ChildrenVector α) (index : Nat) : Option α :=
  match cv.get_child_mut index with
  | none => none
  | some info => info.child

/-- Method `ChildrenVector::swap`. Equal indices return immediately; then two
bounds `assert!`s; then take at `a`, replace at `b`, write the displaced value
back at `a`. An outer `none` models the panic of an assertion or `.expect`. -/
def ChildrenVector.swap (cv : ChildrenVector α) (a b : Nat) :
    Option (ChildrenVector α) :=
  if a = b then
    some cv
  else if cv.len ≤ a then
    none
  else if cv.len ≤ b then
    none
  else
    match cv.get_child_mut a with
    | none => none
    | some info_a =>
      let a_opt := info_a.child
      let cv₁ := cv.set_child a none
      match cv₁.get_child_mut b with
      | none => none
      | some info_b =>
        let b_opt := info_b.child
        let cv₂ := cv₁.set_child b a_opt
        match cv₂.get_child_mut a with
        | none => none
        | some _ => some (cv₂.set_child a b_opt)

/-- Private method `ChildrenVector::pop`: remove and return the last element;
shrink `len`; if the last cell's occupancy was 1, remove the cell itself. -/
def ChildrenVector.pop (cv : ChildrenVector α) : Option (Option α × ChildrenVector α) :=
  if cv.is_empty then
    some (none, cv)
  else
    let last_index := cv.len - 1
    let cv₀ : ChildrenVector α := { cv with len := last_index }
    match cv₀.get_child_mut last_index with
    | none => none
    | some info =>
      let popped_val := info.child
      let cv₁ := cv₀.set_child last_index none
      if info.child_count = 1 then
        some (popped_val, { cv₁ with children := cv₁.children.dropLast })
      else
        some (popped_val, cv₁)

/-- Method `ChildrenVector::swap_remove`. -/
def ChildrenVector.swap_remove (cv : ChildrenVector α) (index : Nat) :
    Option (Option α × ChildrenVector α) :=
  if cv.is_empty then
    some (none, cv)
  else
    match cv.swap index (cv.len - 1) with
    | none => none
    | some cv' => cv'.pop

/-- Method `ChildrenVector::first`. -/
def ChildrenVector.first (cv : ChildrenVector α) : Option α :=
  if cv.is_empty then none else cv.get 0

/-- Method `ChildrenVector::first_mut`. -/
def ChildrenVector.first_mut (cv : ChildrenVector α) : Option α :=
  if cv.is_empty then none else cv.get_mut 0

/-- Method `ChildrenVector::clear`: bulk clear of cells and cached length. -/
def ChildrenVector.clear (cv : ChildrenVector α) : ChildrenVector α :=
  if cv.is_empty then cv else ⟨0, []⟩

/-- Private method `ChildrenVector::push_to`: write into an existing cell, or
append a fresh cell `Children::new(value, None)`. -/
def ChildrenVector.push_to (cv : ChildrenVector α) (index : Nat)
    (value : Option α) : ChildrenVector α :=
  match cv.get_child_mut index with
  | some _ => cv.set_child index value
  | none => { cv with children := cv.children ++ [Children.new value none] }

/-- Method `ChildrenVector::push`: capacity `assert!` against `u32::MAX`,
increment `len`, then `push_to` the old last index. -/
def ChildrenVector.push (cv : ChildrenVector α) (value : α) :
    Option (ChildrenVector α) :=
  if cv.len < u32MAX then
    let last_index := cv.len
    some (({ cv with len := cv.len + 1 } : ChildrenVector α).push_to last_index
      (some value))
  else
    none

/-- Ordering of `Option<&T>` values as produced by Rust's derived `Ord` on
`Option`: `None` is below everything, `Some` compares the payloads. The
sift loops of `mod.rs` compare results of `Elements::get` with `<=`/`>=`. -/
def optLe [LinearOrder α] (x y : Option α) : Bool :=
  match x, y with
  | none, _ => true
  | some _, none => false
  | some a, some b => decide (a ≤ b)

/-- The `BinaryHeap` of `mod.rs`. Its `elements: Elements<T>` field lives in
the missing module `elements.rs`; per the spec there is a single "Logical
Index Translator" component, and the claims identify it with the
`ChildrenVector`, so `Elements` is the `ChildrenVector` here. -/
structure BinaryHeap (α : Type) where
  elements : ChildrenVector α
deriving DecidableEq

/-- Constructor `BinaryHeap::new`. -/
def BinaryHeap.new : BinaryHeap α := ⟨ChildrenVector.new⟩

/-- Method `BinaryHeap::len`. -/
def BinaryHeap.len (h : BinaryHeap α) : Nat := h.elements.len

/-- Method `BinaryHeap::is_empty`. -/
def BinaryHeap.is_empty (h : BinaryHeap α) : Bool := h.elements.is_empty

/-- Method `BinaryHeap::peek`: `self.elements.first()`. -/
def BinaryHeap.peek (h : BinaryHeap α) : Option α := h.elements.first

/-- Loop body of `BinaryHeap::sift_down`; `e` is the `end` local (the length,
captured once), `fuel` bounds the remaining iterations (each iteration moves
`pos` to `2*pos+1` or `2*pos+2`, so `e` iterations always suffice; exhaustion
yields `none` and is proved unreachable at the call sites). The source
computes `child = 2 * pos + 1` (mod.rs lines 152 and 165) and
`right = child + 1` (line 154) in `u32`; each result is checked against
`u32MAX` here, a larger value being the overflow panic of a checked build
(`none`). The `2 * pos + 1` of line 165 is computed before the next
`child < end` test of the loop, so its panic fires even on an iteration
after which the loop would exit; reachable heaps are long enough (up to
`u32MAX` elements) for these overflows to occur, see `C3_pop_overflow`. -/
def sift_down_loop [LinearOrder α] (e : Nat) :
    Nat → ChildrenVector α → Nat → Option (ChildrenVector α)
  | 0, elements, pos =>
    if u32MAX < 2 * pos + 1 then none
    else if 2 * pos + 1 < e then none else some elements
  | fuel + 1, elements, pos =>
    if u32MAX < 2 * pos + 1 then none
    else if 2 * pos + 1 < e then
      if u32MAX < 2 * pos + 1 + 1 then none
      else
        -- compare with the greater of the two children
        let child :=
          if 2 * pos + 1 + 1 < e ∧
              optLe (elements.get (2 * pos + 1)) (elements.get (2 * pos + 1 + 1))
          then 2 * pos + 1 + 1 else 2 * pos + 1
        -- if we are already in order, stop.
        if optLe (elements.get child) (elements.get pos) then
          some elements
        else
          match elements.swap child pos with
          | none => none
          | some elements' => sift_down_loop e fuel elements' child
    else
      some elements

/-- Method `BinaryHeap::sift_down`. -/
def BinaryHeap.sift_down [LinearOrder α] (h : BinaryHeap α) (pos : Nat) :
    Option (BinaryHeap α) :=
  (sift_down_loop h.len h.len h.elements pos).map BinaryHeap.mk

/-- Loop body of `BinaryHeap::sift_up`; iterations strictly decrease `pos`,
so `pos` units of fuel always suffice. -/
def sift_up_loop [LinearOrder α] :
    Nat → ChildrenVector α → Nat → Option (ChildrenVector α)
  | 0, elements, pos =>
    if 0 < pos then none else some elements
  | fuel + 1, elements, pos =>
    if 0 < pos then
      let parent := (pos - 1) / 2
      if optLe (elements.get pos) (elements.get parent) then
        some elements
      else
        match elements.swap parent pos with
        | none => none
        | some elements' => sift_up_loop fuel elements' parent
    else
      some elements

/-- Method `BinaryHeap::sift_up`. -/
def BinaryHeap.sift_up [LinearOrder α] (h : BinaryHeap α) (pos : Nat) :
    Option (BinaryHeap α) :=
  (sift_up_loop pos h.elements pos).map BinaryHeap.mk

/-- Method `BinaryHeap::pop`: `swap_remove(0)` then `sift_down(0)`; the outer
`none` models a panic, the inner option is the returned `Option<T>`. -/
def BinaryHeap.pop [LinearOrder α] (h : BinaryHeap α) :
    Option (Option α × BinaryHeap α) :=
  match h.elements.swap_remove 0 with
  | none => none
  | some (elem, elements') =>
    match (BinaryHeap.mk elements' : BinaryHeap α).sift_down 0 with
    | none => none
    | some h' => some (elem, h')

/-- Method `BinaryHeap::push`: `Elements::push` then `sift_up` from the old
last index. -/
def BinaryHeap.push [LinearOrder α] (h : BinaryHeap α) (value : α) :
    Option (BinaryHeap α) :=
  let old_len := h.len
  match h.elements.push value with
  | none => none
  | some elements' => (BinaryHeap.mk elements' : BinaryHeap α).sift_up old_len

/-- Method `BinaryHeap::clear`. -/
def BinaryHeap.clear (h : BinaryHeap α) : BinaryHeap α := ⟨h.elements.clear⟩

/-- The `PeekMut` guard of `mod.rs`: the exclusively borrowed heap (held by
value here, since the borrow is exclusive for the guard's lifetime) and the
`sift` flag. -/
structure PeekMut (α : Type) where
  heap : BinaryHeap α
  sift : Bool
deriving DecidableEq

/-- Method `BinaryHeap::peek_mut`: a guard (with `sift = true`) on a
non-empty heap, `None` on an empty one. -/
def BinaryHeap.peek_mut (h : BinaryHeap α) : Option (PeekMut α) :=
  if h.is_empty then none else some ⟨h, true⟩

/-- Implementation `Drop for PeekMut`: on release, `sift_down(0)` unless the
resift was suppressed. -/
def PeekMut.drop [LinearOrder α] (g : PeekMut α) : Option (BinaryHeap α) :=
  if g.sift then g.heap.sift_down 0 else some g.heap

/-- Implementation `Deref for PeekMut`: `first().expect(..)`; `none` models
reaching the "PeekMut is only instantiated for non-empty heaps" panic. -/
def PeekMut.deref (g : PeekMut α) : Option α := g.heap.elements.first

/-- Write through `DerefMut for PeekMut`: obtain `first_mut().expect(..)`
(whose failure is the panic, modelled `none`) and assign `v` to the referenced
root value. -/
def PeekMut.write (g : PeekMut α) (v : α) : Option (PeekMut α) :=
  match g.heap.elements.first_mut with
  | none => none
  | some _ => some ⟨⟨g.heap.elements.set_child 0 (some v)⟩, g.sift⟩

/-- Associated function `PeekMut::pop`: pop through the heap, `.expect` the
value, set `sift := false` so that the guard's release performs no resift;
the result heap is therefore exactly the one `BinaryHeap::pop` produced. -/
def PeekMut.pop [LinearOrder α] (g : PeekMut α) : Option (α × BinaryHeap α) :=
  match g.heap.pop with
  | none => none
  | some (none, _) => none
  | some (some value, h') => some (value, h')

/-- The shared-reference iterator of `mod.rs`, reduced to its two cursors.
The source struct also holds the `&Elements` borrow; in the embedding the
borrow's current target is passed to each method explicitly, which is what
lets the spec's "length changes via other handles" scenario be stated. -/
structure Iter where
  begin : Nat
  end_ : Nat
deriving DecidableEq

/-- Constructor `Iter::new`: `begin = 0`, `end` captured from the current
length. -/
def Iter.new (elements : ChildrenVector α) : Iter := ⟨0, elements.len⟩

/-- Method `Iter::remaining`. -/
def Iter.remaining (it : Iter) : Nat := it.end_ - it.begin

/-- Iterator method `count` of `Iter`. -/
def Iter.count (it : Iter) : Nat := it.remaining

/-- Iterator method `size_hint` of `Iter`. -/
def Iter.size_hint (it : Iter) : Nat × Option Nat := (it.remaining, some it.remaining)

/-- Iterator method `nth` of `Iter`. The `n as u32` cast truncates modulo
`2^32`; `begin` is advanced before the element lookup, exactly as in the
source (`self.begin += 1 + n` precedes the `?`). -/
def Iter.nth (elements : ChildrenVector α) (it : Iter) (n : Nat) :
    Option α × Iter :=
  let n := n % 4294967296
  if it.end_ ≤ it.begin + n then
    (none, it)
  else
    let cur := it.begin + n
    let it' : Iter := ⟨it.begin + 1 + n, it.end_⟩
    match elements.get_child cur with
    | none => (none, it')
    | some info => (info.child, it')

/-- Iterator method `next` of `Iter`: `nth(0)`. -/
def Iter.next (elements : ChildrenVector α) (it : Iter) : Option α × Iter :=
  Iter.nth elements it 0

/-- The elements yielded by repeatedly calling `next`; `fuel` bounds the
number of calls (the iterator is finite: `remaining` suffices). -/
def Iter.collect (elements : ChildrenVector α) : Nat → Iter → List α
  | 0, _ => []
  | fuel + 1, it =>
    match Iter.next elements it with
    | (none, _) => []
    | (some x, it') => x :: Iter.collect elements fuel it'

/-- The exclusive-reference iterator of `mod.rs`, reduced to its two cursors
(see `Iter` for the treatment of the borrow). -/
structure IterMut where
  begin : Nat
  end_ : Nat
deriving DecidableEq

/-- Constructor `IterMut::new`. -/
def IterMut.new (elements : ChildrenVector α) : IterMut := ⟨0, elements.len⟩

/-- Method `IterMut::remaining`. -/
def IterMut.remaining (it : IterMut) : Nat := it.end_ - it.begin

/-- Iterator method `count` of `IterMut`. -/
def IterMut.count (it : IterMut) : Nat := it.remaining

/-- Iterator method `size_hint` of `IterMut`. -/
def IterMut.size_hint (it : IterMut) : Nat × Option Nat :=
  (it.remaining, some it.remaining)

/-- Method `IterMut::get_mut`: `get_child_mut(at)?.child.as_mut()` (the
lifetime extension changes no value). -/
def IterMut.get_mut (elements : ChildrenVector α) (idx : Nat) : Option α :=
  match elements.get_child_mut idx with
  | none => none
  | some info => info.child

/-- Iterator method `nth` of `IterMut`: like `Iter::nth` but a missing element
hits `.expect("access is out of bounds")`, modelled by the outer `none`. -/
def IterMut.nth (elements : ChildrenVector α) (it : IterMut) (n : Nat) :
    Option (Option α × IterMut) :=
  let n := n % 4294967296
  if it.end_ ≤ it.begin + n then
    some (none, it)
  else
    let cur := it.begin + n
    let it' : IterMut := ⟨it.begin + 1 + n, it.end_⟩
    match IterMut.get_mut elements cur with
    | none => none
    | some v => some (some v, it')

/-- Iterator method `next` of `IterMut`: `nth(0)`. -/
def IterMut.next (elements : ChildrenVector α) (it : IterMut) :
    Option (Option α × IterMut) :=
  IterMut.nth elements it 0

/-- The elements yielded by repeatedly calling `IterMut::next`; outer `none`
models a panic in some step. -/
def IterMut.collect (elements : ChildrenVector α) :
    Nat → IterMut → Option (List α)
  | 0, _ => some []
  | fuel + 1, it =>
    match IterMut.next elements it with
    | none => none
    | some (none, _) => some []
    | some (some x, it') => (IterMut.collect elements fuel it').map (x :: ·)

/-- Repeatedly `pop` until the heap is empty (at most `fuel` times), listing
the returned elements; used to state the spec's ordered-drain examples. -/
def drainAux [LinearOrder α] : Nat → BinaryHeap α → List α
  | 0, _ => []
  | fuel + 1, h =>
    match h.pop with
    | some (some x, h') => x :: drainAux fuel h'
    | _ => []

/-- Drain a heap by popping `len` times. -/
def BinaryHeap.drain [LinearOrder α] (h : BinaryHeap α) : List α :=
  drainAux h.len h

/-! ## Abstraction: the flat slot sequence of a children vector -/

/-- All slots of the cells, in logical order: cell `j` contributes slots
`2*j` and `2*j+1`. -/
def flattenCells : List (Children α) → List (Option α)
  | [] => []
  | c :: cs => c.first :: c.second :: flattenCells cs

theorem flattenCells_length (cs : List (Children α)) :
    (flattenCells cs).length = 2 * cs.length := by
  induction cs with
  | nil => simp [flattenCells]
  | cons c cs ih => simp [flattenCells, ih]; omega

theorem flattenCells_getElem? (cs : List (Children α)) (i : Nat) :
    (flattenCells cs)[i]? = (cs[i / 2]?).map (fun c => c.child (i % 2)) := by
  induction cs generalizing i with
  | nil => simp [flattenCells]
  | cons c cs ih =>
    match i with
    | 0 => simp [flattenCells, Children.child]
    | 1 => simp [flattenCells, Children.child]
    | (i + 2) =>
      have h2 : (i + 2) / 2 = i / 2 + 1 := by omega
      have h3 : (i + 2) % 2 = i % 2 := by omega
      simp [flattenCells, h2, h3, ih]

theorem flattenCells_set (cs : List (Children α)) (i : Nat) (v : Option α)
    (c : Children α) (hc : cs[i / 2]? = some c) :
    flattenCells (cs.set (i / 2) (c.set_child (i % 2) v)) =
      (flattenCells cs).set i v := by
  induction cs generalizing i with
  | nil => simp at hc
  | cons c₀ cs ih =>
    match i with
    | 0 =>
      simp at hc
      subst hc
      simp [flattenCells, Children.set_child]
    | 1 =>
      simp at hc
      subst hc
      simp [flattenCells, Children.set_child]
    | (i + 2) =>
      have h2 : (i + 2) / 2 = i / 2 + 1 := by omega
      have h3 : (i + 2) % 2 = i % 2 := by omega
      rw [h2] at hc ⊢
      simp only [List.getElem?_cons_succ] at hc
      rw [h3]
      simp only [List.set_cons_succ, flattenCells, List.set_cons_succ]
      rw [ih i hc]

theorem flattenCells_append_one (cs : List (Children α)) (c : Children α) :
    flattenCells (cs ++ [c]) = flattenCells cs ++ [c.first, c.second] := by
  induction cs with
  | nil => simp [flattenCells]
  | cons c₀ cs ih => simp [flattenCells, ih]

theorem flattenCells_dropLast (cs : List (Children α)) :
    flattenCells cs.dropLast = ((flattenCells cs).dropLast).dropLast := by
  induction cs with
  | nil => simp [flattenCells]
  | cons c₀ cs ih =>
    match cs with
    | [] => simp [flattenCells]
    | c₁ :: cs' =>
      have hlen := flattenCells_length (c₁ :: cs')
      have hne : flattenCells (c₁ :: cs') ≠ [] := by
        intro hh
        rw [hh] at hlen
        simp at hlen
      have hne2 : (flattenCells (c₁ :: cs')).dropLast ≠ [] := by
        intro hh
        have h3 := congrArg List.length hh
        simp only [List.length_dropLast, List.length_nil] at h3
        simp only [List.length_cons] at hlen
        omega
      calc flattenCells ((c₀ :: c₁ :: cs').dropLast)
          = c₀.first :: c₀.second :: flattenCells ((c₁ :: cs').dropLast) := by
            rw [List.dropLast_cons₂]
            rfl
        _ = c₀.first :: c₀.second ::
              ((flattenCells (c₁ :: cs')).dropLast).dropLast := by rw [ih]
        _ = ((flattenCells (c₀ :: c₁ :: cs')).dropLast).dropLast := by
            show _ = ((c₀.first :: c₀.second ::
              flattenCells (c₁ :: cs')).dropLast).dropLast
            rw [List.dropLast_cons₂, List.dropLast_cons_of_ne_nil hne,
              List.dropLast_cons₂, List.dropLast_cons_of_ne_nil hne2]

/-! ## The packing invariant -/

/-- Correspondence between a `ChildrenVector` and the logical element list it
represents. This is the packing invariant of spec §3: the cached length is
the number of logical elements (and fits in a `u32`), and the flat slot
sequence is exactly the elements followed by one empty pad slot when the
length is odd. Cell count `⌈len/2⌉` and the occupancy bookkeeping are
consequences. -/
def WF (cv : ChildrenVector α) (l : List α) : Prop :=
  cv.len = l.length ∧ l.length ≤ u32MAX ∧
    flattenCells cv.children = l.map some ++ List.replicate (l.length % 2) none

theorem WF.len_eq {cv : ChildrenVector α} {l : List α} (h : WF cv l) :
    cv.len = l.length := h.1

theorem WF.len_le {cv : ChildrenVector α} {l : List α} (h : WF cv l) :
    l.length ≤ u32MAX := h.2.1

theorem WF.flatten_eq {cv : ChildrenVector α} {l : List α} (h : WF cv l) :
    flattenCells cv.children = l.map some ++ List.replicate (l.length % 2) none :=
  h.2.2

theorem WF.children_length {cv : ChildrenVector α} {l : List α} (h : WF cv l) :
    cv.children.length = (l.length + 1) / 2 := by
  have h1 := flattenCells_length cv.children
  rw [h.flatten_eq] at h1
  simp at h1
  omega

theorem WF.flatten_getElem? {cv : ChildrenVector α} {l : List α} (h : WF cv l)
    (i : Nat) :
    (flattenCells cv.children)[i]? =
      if i < l.length + l.length % 2 then some l[i]? else none := by
  rw [h.flatten_eq]
  rcases Nat.lt_or_ge i l.length with h1 | h1
  · rw [List.getElem?_append_left (by simpa using h1)]
    rw [List.getElem?_map, if_pos (by omega)]
    rw [List.getElem?_eq_getElem h1]
    simp
  · rw [List.getElem?_append_right (by simpa using h1)]
    simp only [List.length_map]
    rcases Nat.lt_or_ge i (l.length + l.length % 2) with h2 | h2
    · rw [if_pos h2]
      have hrep : (List.replicate (l.length % 2) (none : Option α))[i - l.length]?
          = some none := by
        rw [List.getElem?_eq_getElem (by simp; omega)]
        simp
      rw [hrep, List.getElem?_eq_none (by omega)]
    · rw [if_neg (by omega), List.getElem?_eq_none (by simp; omega)]

theorem ChildrenVector.get_child_eq (cv : ChildrenVector α) (i : Nat) :
    cv.get_child i =
      ((flattenCells cv.children)[i]?).map (fun o => ⟨o⟩) := by
  unfold ChildrenVector.get_child
  rw [flattenCells_getElem?]
  simp only [get_children_storage_index, get_child_pos]
  cases cv.children[i / 2]? with
  | none => simp
  | some c => simp

theorem ChildrenVector.get_mut_eq_get (cv : ChildrenVector α) (i : Nat) :
    cv.get_mut i = cv.get i := by
  simp only [ChildrenVector.get_mut, ChildrenVector.get, ChildrenVector.get_child,
    ChildrenVector.get_child_mut]
  cases cv.children[get_children_storage_index i]? <;> rfl

theorem WF.get_eq {cv : ChildrenVector α} {l : List α} (h : WF cv l) (i : Nat) :
    cv.get i = l[i]? := by
  unfold ChildrenVector.get
  rw [cv.get_child_eq]
  rw [h.flatten_getElem?]
  by_cases h1 : i < l.length + l.length % 2
  · simp [h1]
  · simp only [h1, if_neg, ite_false]
    show none = l[i]?
    exact (List.getElem?_eq_none (by omega)).symm

theorem WF.get_mut_eq {cv : ChildrenVector α} {l : List α} (h : WF cv l)
    (i : Nat) : cv.get_mut i = l[i]? := by
  rw [cv.get_mut_eq_get, h.get_eq]

theorem pad_getElem? (l : List α) (i : Nat) :
    (l.map some ++ List.replicate (l.length % 2) none)[i]? =
      if i < l.length + l.length % 2 then some l[i]? else none := by
  rcases Nat.lt_or_ge i l.length with h1 | h1
  · rw [List.getElem?_append_left (by simpa using h1)]
    rw [List.getElem?_map, if_pos (by omega)]
    rw [List.getElem?_eq_getElem h1]
    simp
  · rw [List.getElem?_append_right (by simpa using h1)]
    simp only [List.length_map]
    rcases Nat.lt_or_ge i (l.length + l.length % 2) with h2 | h2
    · rw [if_pos h2]
      have hrep : (List.replicate (l.length % 2) (none : Option α))[i - l.length]?
          = some none := by
        rw [List.getElem?_eq_getElem (by simp; omega)]
        simp
      rw [hrep, List.getElem?_eq_none (by omega)]
    · rw [if_neg (by omega), List.getElem?_eq_none (by simp; omega)]

/-! ## Elementary getElem? and set lemmas -/

theorem getElem?_set_self_of_lt (l : List α) (i : Nat) (x : α)
    (h : i < l.length) : (l.set i x)[i]? = some x := by
  rw [List.getElem?_eq_getElem (by simpa using h)]
  simp [List.getElem_set]

/-! ## List-level swap and the correspondence for `ChildrenVector::swap` -/

/-- Exchange of two in-range positions of a list; the abstract effect of
`ChildrenVector::swap`. -/
def swapL (l : List α) (a b : Nat) : List α :=
  match l[a]?, l[b]? with
  | some x, some y => (l.set a y).set b x
  | _, _ => l

theorem length_swapL (l : List α) (a b : Nat) :
    (swapL l a b).length = l.length := by
  unfold swapL
  cases l[a]? <;> cases l[b]? <;> simp

theorem swapL_getElem? (l : List α) {a b : Nat} (ha : a < l.length)
    (hb : b < l.length) (i : Nat) :
    (swapL l a b)[i]? = if i = b then l[a]? else if i = a then l[b]? else l[i]? := by
  obtain ⟨x, hx⟩ : ∃ x, l[a]? = some x := ⟨_, List.getElem?_eq_getElem ha⟩
  obtain ⟨y, hy⟩ : ∃ y, l[b]? = some y := ⟨_, List.getElem?_eq_getElem hb⟩
  unfold swapL
  rw [hx, hy]
  by_cases hib : i = b
  · subst hib
    rw [if_pos rfl, getElem?_set_self_of_lt _ _ _ (by simpa using hb)]
  · rw [if_neg hib, List.getElem?_set_ne (by omega)]
    by_cases hia : i = a
    · subst hia
      rw [if_pos rfl, getElem?_set_self_of_lt _ _ _ ha]
    · rw [if_neg hia, List.getElem?_set_ne (by omega)]

theorem swapL_self (l : List α) (a : Nat) : swapL l a a = l := by
  rcases Nat.lt_or_ge a l.length with ha | ha
  · apply List.ext_getElem?
    intro i
    rw [swapL_getElem? l ha ha]
    by_cases hia : i = a
    · subst hia
      simp
    · simp [hia]
  · unfold swapL
    rw [List.getElem?_eq_none ha]

/-- Explicit form of `get_child_mut`. -/
theorem get_child_mut_eq (cv : ChildrenVector α) (i : Nat) :
    cv.get_child_mut i =
      match cv.children[i / 2]? with
      | none => none
      | some c => some ⟨c.child (i % 2), c.count⟩ := rfl

theorem get_child_mut_of_lt (cv : ChildrenVector α) (i : Nat)
    (h : i / 2 < cv.children.length) :
    ∃ info, cv.get_child_mut i = some info ∧
      some info.child = (flattenCells cv.children)[i]? := by
  obtain ⟨c, hc⟩ : ∃ c, cv.children[i / 2]? = some c :=
    ⟨_, List.getElem?_eq_getElem h⟩
  refine ⟨⟨c.child (i % 2), c.count⟩, ?_, ?_⟩
  · rw [get_child_mut_eq, hc]
  · rw [flattenCells_getElem?, hc]
    rfl

theorem set_child_len (cv : ChildrenVector α) (i : Nat) (v : Option α) :
    (cv.set_child i v).len = cv.len := by
  simp only [ChildrenVector.set_child]
  cases cv.children[get_children_storage_index i]? <;> rfl

theorem set_child_children_length (cv : ChildrenVector α) (i : Nat)
    (v : Option α) :
    (cv.set_child i v).children.length = cv.children.length := by
  simp only [ChildrenVector.set_child]
  cases h : cv.children[get_children_storage_index i]? with
  | none => rfl
  | some c => simp

theorem set_child_flatten (cv : ChildrenVector α) (i : Nat) (v : Option α)
    (h : i / 2 < cv.children.length) :
    flattenCells (cv.set_child i v).children =
      (flattenCells cv.children).set i v := by
  obtain ⟨c, hc⟩ : ∃ c, cv.children[i / 2]? = some c :=
    ⟨_, List.getElem?_eq_getElem h⟩
  unfold ChildrenVector.set_child
  simp only [get_children_storage_index, get_child_pos, hc]
  exact flattenCells_set cv.children i v c hc

theorem ChildrenVector.swap_self (cv : ChildrenVector α) (a : Nat) :
    cv.swap a a = some cv := by
  simp [ChildrenVector.swap]

theorem ChildrenVector.swap_oob {cv : ChildrenVector α} {a b : Nat}
    (hab : a ≠ b) (hoob : cv.len ≤ a ∨ cv.len ≤ b) : cv.swap a b = none := by
  unfold ChildrenVector.swap
  rcases hoob with hc | hc
  · simp [hab, hc]
  · rcases Nat.lt_or_ge a cv.len with h2 | h2
    · simp [hab, hc, Nat.not_le.mpr h2]
    · simp [hab, h2]

theorem WF.swap_some {cv : ChildrenVector α} {l : List α} (h : WF cv l)
    {a b : Nat} (ha : a < l.length) (hb : b < l.length) :
    ∃ cv', cv.swap a b = some cv' ∧ WF cv' (swapL l a b) := by
  by_cases hab : a = b
  · subst hab
    exact ⟨cv, cv.swap_self a, by rw [swapL_self]; exact h⟩
  · have hla : ¬ cv.len ≤ a := by rw [h.len_eq]; omega
    have hlb : ¬ cv.len ≤ b := by rw [h.len_eq]; omega
    have hca : a / 2 < cv.children.length := by rw [h.children_length]; omega
    have hcb : b / 2 < cv.children.length := by rw [h.children_length]; omega
    obtain ⟨ia, hia, hiac⟩ := get_child_mut_of_lt cv a hca
    have hcb₁ : b / 2 < (cv.set_child a none).children.length := by
      rw [set_child_children_length]; exact hcb
    obtain ⟨ib, hib, hibc⟩ := get_child_mut_of_lt (cv.set_child a none) b hcb₁
    have hca₂ : a / 2 <
        ((cv.set_child a none).set_child b ia.child).children.length := by
      rw [set_child_children_length, set_child_children_length]; exact hca
    obtain ⟨ia', hia', -⟩ :=
      get_child_mut_of_lt ((cv.set_child a none).set_child b ia.child) a hca₂
    refine ⟨((cv.set_child a none).set_child b ia.child).set_child a ib.child,
      ?_, ?_⟩
    · unfold ChildrenVector.swap
      rw [if_neg hab, if_neg hla, if_neg hlb]
      simp only [hia, hib, hia']
    · have hF := h.flatten_getElem?
      have hF1 : flattenCells (cv.set_child a none).children =
          (flattenCells cv.children).set a none :=
        set_child_flatten cv a none hca
      have hF2 : flattenCells ((cv.set_child a none).set_child b ia.child).children =
          (flattenCells (cv.set_child a none).children).set b ia.child :=
        set_child_flatten (cv.set_child a none) b ia.child hcb₁
      have hF3 : flattenCells
            ((((cv.set_child a none).set_child b ia.child)).set_child a ib.child).children =
          (flattenCells ((cv.set_child a none).set_child b ia.child).children).set
            a ib.child :=
        set_child_flatten ((cv.set_child a none).set_child b ia.child) a ib.child hca₂
      have hlen3 :
          ((((cv.set_child a none).set_child b ia.child)).set_child a ib.child).len
            = l.length := by
        rw [set_child_len, set_child_len, set_child_len, h.len_eq]
      have hiav : ia.child = l[a]? := by
        have h2 := hiac
        rw [hF a, if_pos (by omega)] at h2
        exact Option.some_injective _ h2
      have hibv : ib.child = l[b]? := by
        have h2 := hibc
        rw [hF1, List.getElem?_set_ne (by omega), hF b, if_pos (by omega)] at h2
        exact Option.some_injective _ h2
      have hFlen : (flattenCells cv.children).length
          = l.length + l.length % 2 := by
        rw [h.flatten_eq]
        simp
      refine ⟨by rw [length_swapL]; exact hlen3, by
        rw [length_swapL]; exact h.len_le, ?_⟩
      rw [hF3, hF2, hF1, length_swapL]
      apply List.ext_getElem?
      intro i
      have hpad := pad_getElem? (swapL l a b) i
      rw [length_swapL] at hpad
      rw [hpad]
      by_cases hia2 : i = a
      · subst hia2
        rw [getElem?_set_self_of_lt _ _ _ (by
          simp only [List.length_set, hFlen]; omega)]
        rw [if_pos (by omega), swapL_getElem? l ha hb, if_neg hab, if_pos rfl, hibv]
      · rw [List.getElem?_set_ne (by omega)]
        by_cases hib2 : i = b
        · subst hib2
          rw [getElem?_set_self_of_lt _ _ _ (by
            simp only [List.length_set, hFlen]; omega)]
          rw [if_pos (by omega), swapL_getElem? l ha hb, if_pos rfl, hiav]
        · rw [List.getElem?_set_ne (by omega), List.getElem?_set_ne (by omega),
            hF i, swapL_getElem? l ha hb, if_neg hib2, if_neg hia2]

/-! ## Correspondence for push, pop, swap_remove, clear, first -/

theorem get_child_mut_eq_none (cv : ChildrenVector α) (i : Nat)
    (h : cv.children.length ≤ i / 2) : cv.get_child_mut i = none := by
  rw [get_child_mut_eq, List.getElem?_eq_none h]

theorem ChildrenVector.push_none {cv : ChildrenVector α} (v : α)
    (h : u32MAX ≤ cv.len) : cv.push v = none := by
  unfold ChildrenVector.push
  rw [if_neg (by omega)]

theorem WF.push_some {cv : ChildrenVector α} {l : List α} (h : WF cv l) (v : α)
    (hcap : l.length < u32MAX) :
    ∃ cv', cv.push v = some cv' ∧ WF cv' (l ++ [v]) := by
  have hlt : cv.len < u32MAX := by rw [h.len_eq]; exact hcap
  refine ⟨_, by unfold ChildrenVector.push; rw [if_pos hlt], ?_⟩
  have hchL := h.children_length
  have hlen := h.len_eq
  rcases Nat.mod_two_eq_zero_or_one l.length with hp | hp
  · -- even length: a fresh cell is appended
    have hnone : ({ cv with len := cv.len + 1 } :
        ChildrenVector α).get_child_mut cv.len = none := by
      apply get_child_mut_eq_none
      show cv.children.length ≤ cv.len / 2
      omega
    unfold ChildrenVector.push_to
    rw [hnone]
    refine ⟨by simp [hlen], by simp; omega, ?_⟩
    show flattenCells (cv.children ++ [Children.new (some v) none]) = _
    rw [flattenCells_append_one, h.flatten_eq, hp]
    have h1 : (l ++ [v]).length % 2 = 1 := by simp; omega
    rw [h1]
    simp [Children.new]
  · -- odd length: the existing last cell has a free slot
    have hcell : cv.len / 2 <
        ({ cv with len := cv.len + 1 } : ChildrenVector α).children.length := by
      show cv.len / 2 < cv.children.length
      omega
    obtain ⟨info, hinfo, -⟩ :=
      get_child_mut_of_lt ({ cv with len := cv.len + 1 }) cv.len hcell
    unfold ChildrenVector.push_to
    rw [hinfo]
    constructor
    · rw [set_child_len]
      simp [hlen]
    constructor
    · simp
      omega
    · rw [set_child_flatten _ _ _ hcell]
      have hfl : flattenCells ({ cv with len := cv.len + 1 } :
          ChildrenVector α).children = flattenCells cv.children := rfl
      rw [hfl, h.flatten_eq]
      apply List.ext_getElem?
      intro i
      have hpad := pad_getElem? (l ++ [v]) i
      simp only [List.length_append, List.length_singleton] at hpad
      simp only [List.length_append, List.length_singleton]
      rw [hpad]
      by_cases hiL : i = l.length
      · subst hiL
        rw [hlen, getElem?_set_self_of_lt _ _ _ (by simp [hp])]
        rw [if_pos (by omega), List.getElem?_concat_length]
      · rw [hlen, List.getElem?_set_ne (by omega), pad_getElem?]
        by_cases hlt2 : i < l.length
        · rw [if_pos (by omega), if_pos (by omega),
            List.getElem?_append_left hlt2]
        · rw [if_neg (by omega), if_neg (by omega)]

theorem WF.pop_eq {cv : ChildrenVector α} {l : List α} (h : WF cv l) :
    ∃ cv', cv.pop = some (l[l.length - 1]?, cv') ∧ WF cv' l.dropLast := by
  by_cases hL : l.length = 0
  · have hnil : l = [] := List.length_eq_zero.mp hL
    subst hnil
    refine ⟨cv, ?_, by simpa using h⟩
    unfold ChildrenVector.pop
    rw [if_pos (by simp [ChildrenVector.is_empty, h.len_eq])]
    simp
  · have hlen := h.len_eq
    have hchL := h.children_length
    have hle := h.len_le
    have hne : cv.is_empty = false := by
      unfold ChildrenVector.is_empty
      rw [hlen]
      exact beq_eq_false_iff_ne.mpr hL
    have hcell : (cv.len - 1) / 2 <
        ({ cv with len := cv.len - 1 } : ChildrenVector α).children.length := by
      show (cv.len - 1) / 2 < cv.children.length
      omega
    obtain ⟨info, hinfo, hinfoc⟩ :=
      get_child_mut_of_lt ({ cv with len := cv.len - 1 }) (cv.len - 1) hcell
    have hF : ∀ i, (flattenCells cv.children)[i]? =
        if i < l.length + l.length % 2 then some l[i]? else none :=
      h.flatten_getElem?
    have hfl0 : flattenCells ({ cv with len := cv.len - 1 } :
        ChildrenVector α).children = flattenCells cv.children := rfl
    have hvalue : info.child = l[l.length - 1]? := by
      have h2 := hinfoc
      rw [hfl0, hF, if_pos (by omega), hlen] at h2
      exact Option.some_injective _ h2
    -- occupancy of the last cell
    obtain ⟨c, hc⟩ : ∃ c, cv.children[(cv.len - 1) / 2]? = some c :=
      ⟨_, List.getElem?_eq_getElem (by omega)⟩
    have hcount : info.child_count = c.count := by
      rw [get_child_mut_eq] at hinfo
      have hc' : ({ cv with len := cv.len - 1 } :
          ChildrenVector α).children[(cv.len - 1) / 2]? = some c := hc
      rw [hc'] at hinfo
      cases hinfo
      rfl
    have hcfst : some c.first = (flattenCells cv.children)[2 * ((cv.len - 1) / 2)]? := by
      rw [flattenCells_getElem?]
      rw [show 2 * ((cv.len - 1) / 2) / 2 = (cv.len - 1) / 2 by omega, hc]
      simp [Children.child, Nat.mul_mod_right]
    have hcsnd : some c.second =
        (flattenCells cv.children)[2 * ((cv.len - 1) / 2) + 1]? := by
      rw [flattenCells_getElem?]
      rw [show (2 * ((cv.len - 1) / 2) + 1) / 2 = (cv.len - 1) / 2 by omega, hc]
      have : (2 * ((cv.len - 1) / 2) + 1) % 2 = 1 := by omega
      simp [Children.child, this]
    unfold ChildrenVector.pop
    rw [hne]
    simp only [Bool.false_eq_true, if_false, hinfo]
    rcases Nat.mod_two_eq_zero_or_one l.length with hp | hp
    · -- even length: last cell keeps one element, no cell removal
      obtain ⟨x1, hfst⟩ : ∃ x, c.first = some x := by
        have h2 := hcfst
        rw [hF, if_pos (by omega), hlen] at h2
        have h3 : 2 * ((l.length - 1) / 2) = l.length - 2 := by omega
        rw [h3] at h2
        obtain ⟨x, hx⟩ : ∃ x, l[l.length - 2]? = some x :=
          ⟨_, List.getElem?_eq_getElem (by omega)⟩
        rw [hx] at h2
        exact ⟨x, Option.some_injective _ h2⟩
      obtain ⟨x2, hsnd⟩ : ∃ x, c.second = some x := by
        have h2 := hcsnd
        rw [hF, if_pos (by omega), hlen] at h2
        have h3 : 2 * ((l.length - 1) / 2) + 1 = l.length - 1 := by omega
        rw [h3] at h2
        obtain ⟨x, hx⟩ : ∃ x, l[l.length - 1]? = some x :=
          ⟨_, List.getElem?_eq_getElem (by omega)⟩
        rw [hx] at h2
        exact ⟨x, Option.some_injective _ h2⟩
      have hcnt2 : info.child_count = 2 := by
        rw [hcount]
        unfold Children.count
        rw [hfst, hsnd]
        simp
      rw [if_neg (by omega), hvalue]
      refine ⟨_, rfl, ?_, ?_, ?_⟩
      · rw [set_child_len]
        show cv.len - 1 = _
        simp [hlen]
      · simp only [List.length_dropLast]
        omega
      · rw [set_child_flatten _ _ _ hcell, hfl0, h.flatten_eq]
        apply List.ext_getElem?
        intro i
        have hpad := pad_getElem? l.dropLast i
        simp only [List.length_dropLast] at hpad
        simp only [List.length_dropLast]
        rw [hpad]
        have hmod : (l.length - 1) % 2 = 1 := by omega
        by_cases hiL : i = cv.len - 1
        · subst hiL
          rw [getElem?_set_self_of_lt _ _ _ (by simp [hp]; omega)]
          rw [if_pos (by omega), List.getElem?_dropLast,
            if_neg (by omega)]
        · rw [List.getElem?_set_ne (by omega), pad_getElem?]
          by_cases hlt2 : i < l.length - 1
          · rw [if_pos (by omega), if_pos (by omega),
              List.getElem?_dropLast, if_pos (by omega)]
          · rw [if_neg (by omega), if_neg (by omega)]
    · -- odd length: last cell becomes empty and is removed
      obtain ⟨x1, hfst⟩ : ∃ x, c.first = some x := by
        have h2 := hcfst
        rw [hF, if_pos (by omega), hlen] at h2
        have h3 : 2 * ((l.length - 1) / 2) = l.length - 1 := by omega
        rw [h3] at h2
        obtain ⟨x, hx⟩ : ∃ x, l[l.length - 1]? = some x :=
          ⟨_, List.getElem?_eq_getElem (by omega)⟩
        rw [hx] at h2
        exact ⟨x, Option.some_injective _ h2⟩
      have hsnd : c.second = none := by
        have h2 := hcsnd
        rw [hF] at h2
        rw [hlen] at h2
        rw [if_pos (by omega)] at h2
        have h3 : 2 * ((l.length - 1) / 2) + 1 = l.length := by omega
        rw [h3, List.getElem?_eq_none (by omega)] at h2
        exact Option.some_injective _ h2
      have hcnt1 : info.child_count = 1 := by
        rw [hcount]
        unfold Children.count
        rw [hfst, hsnd]
        simp
      rw [if_pos hcnt1, hvalue]
      refine ⟨_, rfl, ?_, ?_, ?_⟩
      · show (({ cv with len := cv.len - 1 } :
            ChildrenVector α).set_child (cv.len - 1) none).len = _
        rw [set_child_len]
        show cv.len - 1 = _
        simp [hlen]
      · simp only [List.length_dropLast]
        omega
      · show flattenCells (({ cv with len := cv.len - 1 } :
            ChildrenVector α).set_child (cv.len - 1) none).children.dropLast = _
        rw [flattenCells_dropLast, set_child_flatten _ _ _ hcell, hfl0,
          h.flatten_eq]
        apply List.ext_getElem?
        intro i
        have hpad := pad_getElem? l.dropLast i
        simp only [List.length_dropLast] at hpad
        simp only [List.length_dropLast]
        rw [hpad]
        have hlenset : (((l.map some ++ List.replicate (l.length % 2) none).set
            (cv.len - 1) none)).length = l.length + 1 := by
          simp [hp]
        rw [List.getElem?_dropLast, List.getElem?_dropLast]
        simp only [List.length_dropLast, hlenset]
        by_cases hlt2 : i < l.length - 1
        · rw [if_pos (by omega), if_pos (by omega), if_pos (by omega)]
          rw [List.getElem?_set_ne (by omega), pad_getElem?,
            if_pos (by omega), List.getElem?_dropLast, if_pos (by omega)]
        · rw [if_neg (by omega), if_neg (by omega)]

theorem ChildrenVector.swap_remove_empty (cv : ChildrenVector α)
    (hcv : cv.len = 0) (i : Nat) : cv.swap_remove i = some (none, cv) := by
  unfold ChildrenVector.swap_remove
  rw [if_pos (by simp [ChildrenVector.is_empty, hcv])]

theorem WF.swap_remove_eq {cv : ChildrenVector α} {l : List α} (h : WF cv l)
    (i : Nat) (hi : i < l.length) :
    ∃ cv', cv.swap_remove i = some (l[i]?, cv') ∧
      WF cv' ((swapL l i (l.length - 1)).dropLast) := by
  have hlen := h.len_eq
  obtain ⟨cv₂, hsw, hwf₂⟩ := h.swap_some hi (show l.length - 1 < l.length by omega)
  obtain ⟨cv₃, hpop, hwf₃⟩ := hwf₂.pop_eq
  have hval : (swapL l i (l.length - 1))[(swapL l i (l.length - 1)).length - 1]?
      = l[i]? := by
    rw [length_swapL, swapL_getElem? l hi (by omega), if_pos rfl]
  refine ⟨cv₃, ?_, hwf₃⟩
  have hne : cv.is_empty = false := by
    unfold ChildrenVector.is_empty
    rw [hlen]
    exact beq_eq_false_iff_ne.mpr (by omega)
  unfold ChildrenVector.swap_remove
  rw [hne]
  simp only [Bool.false_eq_true, if_false]
  rw [hlen, hsw]
  rw [hval] at hpop
  exact hpop

theorem WF.clear_wf {cv : ChildrenVector α} {l : List α} (h : WF cv l) :
    WF cv.clear [] := by
  unfold ChildrenVector.clear
  by_cases hL : cv.is_empty
  · rw [if_pos hL]
    simp [ChildrenVector.is_empty, h.len_eq] at hL
    subst hL
    exact h
  · rw [if_neg hL]
    refine ⟨rfl, by simp [u32MAX], by simp [flattenCells]⟩

theorem ChildrenVector.clear_len (cv : ChildrenVector α) : cv.clear.len = 0 := by
  unfold ChildrenVector.clear
  by_cases hL : cv.is_empty
  · rw [if_pos hL]
    simpa [ChildrenVector.is_empty] using hL
  · rw [if_neg hL]

theorem WF.first_eq {cv : ChildrenVector α} {l : List α} (h : WF cv l) :
    cv.first = l[0]? := by
  unfold ChildrenVector.first
  by_cases hL : cv.is_empty
  · rw [if_pos hL]
    have h0 : cv.len = 0 := by simpa [ChildrenVector.is_empty] using hL
    rw [h.len_eq] at h0
    rw [List.getElem?_eq_none (by omega)]
  · rw [if_neg hL, h.get_eq]

theorem WF.first_mut_eq {cv : ChildrenVector α} {l : List α} (h : WF cv l) :
    cv.first_mut = l[0]? := by
  unfold ChildrenVector.first_mut
  by_cases hL : cv.is_empty
  · rw [if_pos hL]
    have h0 : cv.len = 0 := by simpa [ChildrenVector.is_empty] using hL
    rw [h.len_eq] at h0
    rw [List.getElem?_eq_none (by omega)]
  · rw [if_neg hL, h.get_mut_eq]

/-! ## The heap ordering on optional values -/

theorem optLe_refl [LinearOrder α] (x : Option α) : optLe x x = true := by
  cases x <;> simp [optLe]

theorem optLe_none [LinearOrder α] (x : Option α) : optLe none x = true := rfl

theorem optLe_trans [LinearOrder α] {x y z : Option α} (h1 : optLe x y = true)
    (h2 : optLe y z = true) : optLe x z = true := by
  cases x with
  | none => rfl
  | some a =>
    cases y with
    | none => simp [optLe] at h1
    | some b =>
      cases z with
      | none => simp [optLe] at h2
      | some c =>
        simp [optLe] at h1 h2 ⊢
        exact le_trans h1 h2

theorem optLe_of_not_optLe [LinearOrder α] {x y : Option α}
    (h : ¬ optLe x y = true) : optLe y x = true := by
  cases x with
  | none => exact absurd rfl h
  | some a =>
    cases y with
    | none => rfl
    | some b =>
      simp [optLe] at h ⊢
      exact le_of_lt h

theorem optLe_some_some [LinearOrder α] {a b : α} :
    optLe (some a) (some b) = true ↔ a ≤ b := by
  simp [optLe]

/-! ## The heap property and the sift invariants -/

/-- Parent of heap position `i`, as computed by the source: `(i - 1) / 2`. -/
def parentIdx (i : Nat) : Nat := (i - 1) / 2

theorem parentIdx_eq_iff {i p : Nat} (hi : 0 < i) :
    parentIdx i = p ↔ i = 2 * p + 1 ∨ i = 2 * p + 2 := by
  unfold parentIdx
  omega

theorem parentIdx_lt {i : Nat} (hi : 0 < i) : parentIdx i < i := by
  unfold parentIdx
  omega

/-- The max-heap invariant on the logical element list: every non-root
position is ≤ its parent. -/
def IsHeap [LinearOrder α] (l : List α) : Prop :=
  ∀ i, 0 < i → i < l.length → optLe l[i]? l[parentIdx i]? = true

/-- State of the `sift_down` loop: every heap edge is ordered except possibly
the edges out of `pos`, and (when `pos` is not the root) the children of `pos`
fit below the parent of `pos`. -/
def AlmostHeapD [LinearOrder α] (l : List α) (pos : Nat) : Prop :=
  (∀ i, 0 < i → i < l.length → parentIdx i ≠ pos →
    optLe l[i]? l[parentIdx i]? = true) ∧
  (0 < pos → ∀ i, 0 < i → i < l.length → parentIdx i = pos →
    optLe l[i]? l[parentIdx pos]? = true)

/-- State of the `sift_up` loop: every heap edge is ordered except possibly
the edge into `pos`, and the children of `pos` fit below the parent of
`pos`. -/
def AlmostHeapU [LinearOrder α] (l : List α) (pos : Nat) : Prop :=
  (∀ i, 0 < i → i < l.length → i ≠ pos →
    optLe l[i]? l[parentIdx i]? = true) ∧
  (0 < pos → ∀ i, 0 < i → i < l.length → parentIdx i = pos →
    optLe l[i]? l[parentIdx pos]? = true)

theorem IsHeap.almostD [LinearOrder α] {l : List α} (h : IsHeap l) (pos : Nat) :
    AlmostHeapD l pos := by
  refine ⟨fun i h1 h2 _ => h i h1 h2, fun hpos i h1 h2 hpi => ?_⟩
  have h3 : pos < l.length := by
    have h4 := (parentIdx_eq_iff h1).mp hpi
    omega
  refine optLe_trans ?_ (h pos hpos h3)
  rw [← hpi]
  exact h i h1 h2

theorem AlmostHeapD.isHeap_of_no_child [LinearOrder α] {l : List α} {pos : Nat}
    (h : AlmostHeapD l pos) (hnc : l.length ≤ 2 * pos + 1) : IsHeap l := by
  intro i h1 h2
  by_cases hp : parentIdx i = pos
  · exfalso
    have h3 := (parentIdx_eq_iff h1).mp hp
    omega
  · exact h.1 i h1 h2 hp

theorem AlmostHeapD.isHeap_of_stop_down [LinearOrder α] {l : List α} {pos m : Nat}
    (h : AlmostHeapD l pos)
    (hmax : ∀ j, 0 < j → j < l.length → parentIdx j = pos →
      optLe l[j]? l[m]? = true)
    (hstop : optLe l[m]? l[pos]? = true) : IsHeap l := by
  intro i h1 h2
  by_cases hp : parentIdx i = pos
  · rw [hp]
    exact optLe_trans (hmax i h1 h2 hp) hstop
  · exact h.1 i h1 h2 hp

theorem AlmostHeapD.step_down [LinearOrder α] {l : List α} {pos m : Nat}
    (h : AlmostHeapD l pos) (hm0 : 0 < m) (hpm : parentIdx m = pos)
    (hmL : m < l.length) (hposL : pos < l.length)
    (hmax : ∀ j, 0 < j → j < l.length → parentIdx j = pos →
      optLe l[j]? l[m]? = true)
    (hgt : ¬ optLe l[m]? l[pos]? = true) :
    AlmostHeapD (swapL l m pos) m := by
  have hmpos : pos < m := by
    have h3 := (parentIdx_eq_iff hm0).mp hpm
    omega
  have hget := swapL_getElem? l hmL hposL
  have hlen := length_swapL l m pos
  constructor
  · intro i h1 h2 hpi
    rw [hlen] at h2
    by_cases him : i = m
    · rw [him] at h1 h2 ⊢
      rw [hget m, if_neg (by omega), if_pos rfl,
        hget (parentIdx m), hpm, if_pos rfl]
      exact optLe_of_not_optLe hgt
    · by_cases hip : i = pos
      · rw [hip] at h1 h2 ⊢
        have hp0 : 0 < pos := h1
        have hpp : parentIdx pos < pos := parentIdx_lt hp0
        rw [hget pos, if_pos rfl, hget (parentIdx pos),
          if_neg (by omega), if_neg (by omega)]
        exact h.2 hp0 m hm0 hmL hpm
      · rw [hget i, if_neg hip, if_neg him]
        by_cases hpp : parentIdx i = pos
        · rw [hget (parentIdx i), hpp, if_pos rfl]
          exact hmax i h1 h2 hpp
        · rw [hget (parentIdx i), if_neg hpp, if_neg hpi]
          exact h.1 i h1 h2 hpp
  · intro hm0' j hj0 hjL hpj
    rw [hlen] at hjL
    have hjm : m < j := by
      have h3 := (parentIdx_eq_iff hj0).mp hpj
      omega
    rw [hget j, if_neg (by omega), if_neg (by omega), hget (parentIdx m), hpm,
      if_pos rfl]
    have h4 : parentIdx j ≠ pos := by omega
    have h5 := h.1 j hj0 hjL h4
    rw [hpj] at h5
    exact h5

theorem IsHeap.almostU_append [LinearOrder α] {l : List α} (h : IsHeap l)
    (v : α) : AlmostHeapU (l ++ [v]) l.length := by
  constructor
  · intro i h1 h2 hne
    have h3 : i < l.length := by
      simp only [List.length_append, List.length_singleton] at h2
      omega
    have h4 : parentIdx i < i := parentIdx_lt h1
    rw [List.getElem?_append_left h3, List.getElem?_append_left (by omega)]
    exact h i h1 h3
  · intro hpos i h1 h2 hpi
    exfalso
    have h3 := (parentIdx_eq_iff h1).mp hpi
    simp only [List.length_append, List.length_singleton] at h2
    omega

theorem AlmostHeapU.isHeap_of_stop_up [LinearOrder α] {l : List α} {pos : Nat}
    (h : AlmostHeapU l pos)
    (hstop : optLe l[pos]? l[parentIdx pos]? = true) : IsHeap l := by
  intro i h1 h2
  by_cases hip : i = pos
  · subst hip
    exact hstop
  · exact h.1 i h1 h2 hip

theorem AlmostHeapU.isHeap_of_root [LinearOrder α] {l : List α}
    (h : AlmostHeapU l 0) : IsHeap l :=
  fun i h1 h2 => h.1 i h1 h2 (by omega)

theorem AlmostHeapU.step_up [LinearOrder α] {l : List α} {pos : Nat}
    (h : AlmostHeapU l pos) (hpos : 0 < pos) (hposL : pos < l.length)
    (hgt : ¬ optLe l[pos]? l[parentIdx pos]? = true) :
    AlmostHeapU (swapL l (parentIdx pos) pos) (parentIdx pos) := by
  have hpp : parentIdx pos < pos := parentIdx_lt hpos
  have hpL : parentIdx pos < l.length := by omega
  have hget := swapL_getElem? l hpL hposL
  have hlen := length_swapL l (parentIdx pos) pos
  have hle : optLe l[parentIdx pos]? l[pos]? = true := optLe_of_not_optLe hgt
  constructor
  · intro i h1 h2 hip
    rw [hlen] at h2
    by_cases hipos : i = pos
    · rw [hipos] at h1 h2 ⊢
      rw [hget pos, if_pos rfl, hget (parentIdx pos), if_neg (by omega),
        if_pos rfl]
      exact hle
    · rw [hget i, if_neg hipos, if_neg hip]
      by_cases hpar : parentIdx i = parentIdx pos
      · rw [hget (parentIdx i), hpar, if_neg (by omega), if_pos rfl]
        exact optLe_trans (by rw [← hpar]; exact h.1 i h1 h2 hipos) hle
      · by_cases hpar2 : parentIdx i = pos
        · rw [hget (parentIdx i), hpar2, if_pos rfl]
          have h5 := h.2 hpos i h1 h2 hpar2
          exact h5
        · rw [hget (parentIdx i), if_neg hpar2, if_neg hpar]
          exact h.1 i h1 h2 hipos
  · intro hp0 j hj0 hjL hpj
    rw [hlen] at hjL
    have hgg : parentIdx (parentIdx pos) < parentIdx pos := parentIdx_lt hp0
    rw [hget (parentIdx (parentIdx pos)), if_neg (by omega), if_neg (by omega)]
    have hppL : parentIdx pos < l.length := hpL
    have hpineq := h.1 (parentIdx pos) hp0 hppL (by omega)
    by_cases hjpos : j = pos
    · rw [hjpos] at hj0 hjL ⊢
      rw [hget pos, if_pos rfl]
      exact hpineq
    · have hjp : parentIdx pos < j := by
        have h3 := (parentIdx_eq_iff hj0).mp hpj
        omega
      rw [hget j, if_neg hjpos, if_neg (by omega)]
      have h6 := h.1 j hj0 hjL hjpos
      rw [hpj] at h6
      exact optLe_trans h6 hpineq

/-! ## Behaviour of the sift loops -/

theorem sift_down_loop_overflow [LinearOrder α] (e fuel : Nat)
    (cv : ChildrenVector α) (pos : Nat) (h : u32MAX < 2 * pos + 1) :
    sift_down_loop e fuel cv pos = none := by
  cases fuel with
  | zero =>
    unfold sift_down_loop
    rw [if_pos h]
  | succ fuel =>
    unfold sift_down_loop
    rw [if_pos h]

theorem sift_down_loop_stop [LinearOrder α] (e fuel : Nat)
    (cv : ChildrenVector α) (pos : Nat) (hov : 2 * pos + 1 ≤ u32MAX)
    (h : ¬ 2 * pos + 1 < e) :
    sift_down_loop e fuel cv pos = some cv := by
  cases fuel with
  | zero =>
    unfold sift_down_loop
    rw [if_neg (by omega), if_neg h]
  | succ fuel =>
    unfold sift_down_loop
    rw [if_neg (by omega), if_neg h]

theorem sift_down_loop_right_overflow [LinearOrder α] (e fuel : Nat)
    (cv : ChildrenVector α) (pos : Nat) (hov : 2 * pos + 1 ≤ u32MAX)
    (h : 2 * pos + 1 < e) (hov2 : u32MAX < 2 * pos + 1 + 1) :
    sift_down_loop e (fuel + 1) cv pos = none := by
  conv_lhs => rw [sift_down_loop]
  rw [if_neg (by omega), if_pos h, if_pos hov2]

theorem sift_down_loop_succ [LinearOrder α] (e fuel : Nat)
    (cv : ChildrenVector α) (pos : Nat) (hov : 2 * pos + 1 + 1 ≤ u32MAX)
    (h : 2 * pos + 1 < e) :
    sift_down_loop e (fuel + 1) cv pos =
      (let child := if 2 * pos + 1 + 1 < e ∧
            optLe (cv.get (2 * pos + 1)) (cv.get (2 * pos + 1 + 1)) = true
          then 2 * pos + 1 + 1 else 2 * pos + 1
        if optLe (cv.get child) (cv.get pos) = true then some cv
        else
          match cv.swap child pos with
          | none => none
          | some elements' => sift_down_loop e fuel elements' child) := by
  conv_lhs => rw [sift_down_loop]
  rw [if_neg (show ¬ u32MAX < 2 * pos + 1 by omega), if_pos h,
    if_neg (show ¬ u32MAX < 2 * pos + 1 + 1 by omega)]

theorem sift_up_loop_stop [LinearOrder α] (fuel : Nat) (cv : ChildrenVector α)
    (pos : Nat) (h : ¬ 0 < pos) : sift_up_loop fuel cv pos = some cv := by
  cases fuel with
  | zero =>
    unfold sift_up_loop
    rw [if_neg h]
  | succ fuel =>
    unfold sift_up_loop
    rw [if_neg h]

theorem sift_up_loop_succ [LinearOrder α] (fuel : Nat) (cv : ChildrenVector α)
    (pos : Nat) (h : 0 < pos) :
    sift_up_loop (fuel + 1) cv pos =
      (if optLe (cv.get pos) (cv.get ((pos - 1) / 2)) = true then some cv
        else
          match cv.swap ((pos - 1) / 2) pos with
          | none => none
          | some elements' => sift_up_loop fuel elements' ((pos - 1) / 2)) := by
  conv_lhs => rw [sift_up_loop]
  rw [if_pos h]

theorem sift_up_loop_stop_le [LinearOrder α] (fuel : Nat)
    (cv : ChildrenVector α) (pos : Nat) (hfuel : 0 < fuel)
    (h : optLe (cv.get pos) (cv.get ((pos - 1) / 2)) = true) :
    sift_up_loop fuel cv pos = some cv := by
  cases fuel with
  | zero => omega
  | succ f =>
    by_cases hpos : 0 < pos
    · rw [sift_up_loop_succ f cv pos hpos, if_pos h]
    · exact sift_up_loop_stop _ _ _ hpos

/-- Main lemma for `sift_down`: starting from a sift-down state on a list
short enough that the `u32` index computations cannot overflow (length at
most `2^31`, initial `2 * pos + 1` within `u32`), the loop never hits a
panic or fuel exhaustion and restores the full heap property, preserving
the packing invariant and the length. -/
theorem sift_down_loop_spec [LinearOrder α] (fuel : Nat) :
    ∀ (cv : ChildrenVector α) (l : List α) (pos : Nat),
    WF cv l → AlmostHeapD l pos → l.length ≤ fuel + pos →
    2 * l.length ≤ u32MAX + 1 → 2 * pos + 1 ≤ u32MAX →
    ∃ cv' l', sift_down_loop l.length fuel cv pos = some cv' ∧ WF cv' l' ∧
      l'.length = l.length ∧ IsHeap l' := by
  have hU : u32MAX = 4294967295 := rfl
  induction fuel with
  | zero =>
    intro cv l pos hwf hD hfuel hbound hpos
    exact ⟨cv, l, sift_down_loop_stop _ _ _ _ hpos (by omega), hwf, rfl,
      hD.isHeap_of_no_child (by omega)⟩
  | succ fuel ih =>
    intro cv l pos hwf hD hfuel hbound hpos
    by_cases hchild : 2 * pos + 1 < l.length
    case neg =>
      exact ⟨cv, l, sift_down_loop_stop _ _ _ _ hpos hchild, hwf, rfl,
        hD.isHeap_of_no_child (by omega)⟩
    case pos =>
      have hposL : pos < l.length := by omega
      rw [sift_down_loop_succ _ _ _ _ (by omega) hchild]
      simp only [hwf.get_eq]
      by_cases hsel : 2 * pos + 1 + 1 < l.length ∧
          optLe l[2 * pos + 1]? l[2 * pos + 1 + 1]? = true
      · rw [if_pos hsel]
        have hm0 : 0 < 2 * pos + 1 + 1 := by omega
        have hpm : parentIdx (2 * pos + 1 + 1) = pos := by
          unfold parentIdx
          omega
        have hmax : ∀ j, 0 < j → j < l.length → parentIdx j = pos →
            optLe l[j]? l[2 * pos + 1 + 1]? = true := by
          intro j hj0 hjL hpj
          rcases (parentIdx_eq_iff hj0).mp hpj with hj | hj
          · subst hj
            exact hsel.2
          · subst hj
            exact optLe_refl _
        by_cases hstop : optLe l[2 * pos + 1 + 1]? l[pos]? = true
        · rw [if_pos hstop]
          exact ⟨cv, l, rfl, hwf, rfl, hD.isHeap_of_stop_down hmax hstop⟩
        · rw [if_neg hstop]
          obtain ⟨cv₂, hsw, hwf₂⟩ := hwf.swap_some hsel.1 hposL
          rw [hsw]
          have hD' := hD.step_down hm0 hpm hsel.1 hposL hmax hstop
          obtain ⟨cv', l', heq, hwf', hlen', hheap⟩ :=
            ih cv₂ (swapL l (2 * pos + 1 + 1) pos) (2 * pos + 1 + 1) hwf₂ hD'
              (by rw [length_swapL]; omega) (by rw [length_swapL]; omega)
              (by omega)
          rw [length_swapL] at heq
          exact ⟨cv', l', heq, hwf', by rw [hlen', length_swapL], hheap⟩
      · rw [if_neg hsel]
        have hm0 : 0 < 2 * pos + 1 := by omega
        have hpm : parentIdx (2 * pos + 1) = pos := by
          unfold parentIdx
          omega
        have hmax : ∀ j, 0 < j → j < l.length → parentIdx j = pos →
            optLe l[j]? l[2 * pos + 1]? = true := by
          intro j hj0 hjL hpj
          rcases (parentIdx_eq_iff hj0).mp hpj with hj | hj
          · subst hj
            exact optLe_refl _
          · subst hj
            have hB : ¬ optLe l[2 * pos + 1]? l[2 * pos + 1 + 1]? = true :=
              fun hB => hsel ⟨by omega, hB⟩
            exact optLe_of_not_optLe hB
        by_cases hstop : optLe l[2 * pos + 1]? l[pos]? = true
        · rw [if_pos hstop]
          exact ⟨cv, l, rfl, hwf, rfl, hD.isHeap_of_stop_down hmax hstop⟩
        · rw [if_neg hstop]
          obtain ⟨cv₂, hsw, hwf₂⟩ := hwf.swap_some hchild hposL
          rw [hsw]
          have hD' := hD.step_down hm0 hpm hchild hposL hmax hstop
          obtain ⟨cv', l', heq, hwf', hlen', hheap⟩ :=
            ih cv₂ (swapL l (2 * pos + 1) pos) (2 * pos + 1) hwf₂ hD'
              (by rw [length_swapL]; omega) (by rw [length_swapL]; omega)
              (by omega)
          rw [length_swapL] at heq
          exact ⟨cv', l', heq, hwf', by rw [hlen', length_swapL], hheap⟩

/-- Partial correctness of the `sift_down` loop, with no length bound: if
the loop returns a state at all (no overflow panic, no swap panic and no
fuel exhaustion), that state is a heap satisfying the packing invariant at
the original length. -/
theorem sift_down_loop_partial [LinearOrder α] (fuel : Nat) :
    ∀ (cv cv' : ChildrenVector α) (l : List α) (pos : Nat),
    WF cv l → AlmostHeapD l pos →
    sift_down_loop l.length fuel cv pos = some cv' →
    ∃ l', WF cv' l' ∧ l'.length = l.length ∧ IsHeap l' := by
  induction fuel with
  | zero =>
    intro cv cv' l pos hwf hD heq
    unfold sift_down_loop at heq
    by_cases hov : u32MAX < 2 * pos + 1
    · rw [if_pos hov] at heq
      cases heq
    · rw [if_neg hov] at heq
      by_cases hchild : 2 * pos + 1 < l.length
      · rw [if_pos hchild] at heq
        cases heq
      · rw [if_neg hchild] at heq
        cases heq
        exact ⟨l, hwf, rfl, hD.isHeap_of_no_child (by omega)⟩
  | succ fuel ih =>
    intro cv cv' l pos hwf hD heq
    by_cases hov : u32MAX < 2 * pos + 1
    · rw [sift_down_loop_overflow _ _ _ _ hov] at heq
      cases heq
    · by_cases hchild : 2 * pos + 1 < l.length
      case neg =>
        rw [sift_down_loop_stop _ _ _ _ (by omega) hchild] at heq
        cases heq
        exact ⟨l, hwf, rfl, hD.isHeap_of_no_child (by omega)⟩
      case pos =>
        by_cases hov2 : u32MAX < 2 * pos + 1 + 1
        · rw [sift_down_loop_right_overflow _ _ _ _ (by omega) hchild hov2]
            at heq
          cases heq
        · have hposL : pos < l.length := by omega
          rw [sift_down_loop_succ _ _ _ _ (by omega) hchild] at heq
          simp only [hwf.get_eq] at heq
          by_cases hsel : 2 * pos + 1 + 1 < l.length ∧
              optLe l[2 * pos + 1]? l[2 * pos + 1 + 1]? = true
          · rw [if_pos hsel] at heq
            have hm0 : 0 < 2 * pos + 1 + 1 := by omega
            have hpm : parentIdx (2 * pos + 1 + 1) = pos := by
              unfold parentIdx
              omega
            have hmax : ∀ j, 0 < j → j < l.length → parentIdx j = pos →
                optLe l[j]? l[2 * pos + 1 + 1]? = true := by
              intro j hj0 hjL hpj
              rcases (parentIdx_eq_iff hj0).mp hpj with hj | hj
              · subst hj
                exact hsel.2
              · subst hj
                exact optLe_refl _
            by_cases hstop : optLe l[2 * pos + 1 + 1]? l[pos]? = true
            · rw [if_pos hstop] at heq
              cases heq
              exact ⟨l, hwf, rfl, hD.isHeap_of_stop_down hmax hstop⟩
            · rw [if_neg hstop] at heq
              obtain ⟨cv₂, hsw, hwf₂⟩ := hwf.swap_some hsel.1 hposL
              rw [hsw] at heq
              have hD' := hD.step_down hm0 hpm hsel.1 hposL hmax hstop
              have heq2 : sift_down_loop (swapL l (2 * pos + 1 + 1) pos).length
                  fuel cv₂ (2 * pos + 1 + 1) = some cv' := by
                rw [length_swapL]
                exact heq
              obtain ⟨l', hwf', hlen', hheap⟩ := ih cv₂ cv' _ _ hwf₂ hD' heq2
              exact ⟨l', hwf', by rw [hlen', length_swapL], hheap⟩
          · rw [if_neg hsel] at heq
            have hm0 : 0 < 2 * pos + 1 := by omega
            have hpm : parentIdx (2 * pos + 1) = pos := by
              unfold parentIdx
              omega
            have hmax : ∀ j, 0 < j → j < l.length → parentIdx j = pos →
                optLe l[j]? l[2 * pos + 1]? = true := by
              intro j hj0 hjL hpj
              rcases (parentIdx_eq_iff hj0).mp hpj with hj | hj
              · subst hj
                exact optLe_refl _
              · subst hj
                have hB : ¬ optLe l[2 * pos + 1]? l[2 * pos + 1 + 1]? = true :=
                  fun hB => hsel ⟨by omega, hB⟩
                exact optLe_of_not_optLe hB
            by_cases hstop : optLe l[2 * pos + 1]? l[pos]? = true
            · rw [if_pos hstop] at heq
              cases heq
              exact ⟨l, hwf, rfl, hD.isHeap_of_stop_down hmax hstop⟩
            · rw [if_neg hstop] at heq
              obtain ⟨cv₂, hsw, hwf₂⟩ := hwf.swap_some hchild hposL
              rw [hsw] at heq
              have hD' := hD.step_down hm0 hpm hchild hposL hmax hstop
              have heq2 : sift_down_loop (swapL l (2 * pos + 1) pos).length
                  fuel cv₂ (2 * pos + 1) = some cv' := by
                rw [length_swapL]
                exact heq
              obtain ⟨l', hwf', hlen', hheap⟩ := ih cv₂ cv' _ _ hwf₂ hD' heq2
              exact ⟨l', hwf', by rw [hlen', length_swapL], hheap⟩

/-- Main lemma for `sift_up`: starting from a sift-up state, the loop never
hits a panic or fuel exhaustion and restores the full heap property,
preserving the packing invariant and the length. -/
theorem sift_up_loop_spec [LinearOrder α] (fuel : Nat) :
    ∀ (cv : ChildrenVector α) (l : List α) (pos : Nat),
    WF cv l → AlmostHeapU l pos → pos ≤ fuel →
    ∃ cv' l', sift_up_loop fuel cv pos = some cv' ∧ WF cv' l' ∧
      l'.length = l.length ∧ IsHeap l' := by
  induction fuel with
  | zero =>
    intro cv l pos hwf hU hfuel
    have hpos0 : pos = 0 := by omega
    subst hpos0
    exact ⟨cv, l, sift_up_loop_stop _ _ _ (by omega), hwf, rfl,
      hU.isHeap_of_root⟩
  | succ fuel ih =>
    intro cv l pos hwf hU hfuel
    by_cases hpos : 0 < pos
    case neg =>
      have hpos0 : pos = 0 := by omega
      subst hpos0
      exact ⟨cv, l, sift_up_loop_stop _ _ _ (by omega), hwf, rfl,
        hU.isHeap_of_root⟩
    case pos =>
      rw [sift_up_loop_succ _ _ _ hpos]
      simp only [hwf.get_eq]
      by_cases hstop : optLe l[pos]? l[(pos - 1) / 2]? = true
      · rw [if_pos hstop]
        exact ⟨cv, l, rfl, hwf, rfl, hU.isHeap_of_stop_up hstop⟩
      · rw [if_neg hstop]
        have hposL : pos < l.length := by
          by_contra hc
          exact hstop (by
            rw [List.getElem?_eq_none (by omega)]
            exact optLe_none _)
        have hppos : parentIdx pos < pos := parentIdx_lt hpos
        obtain ⟨cv₂, hsw, hwf₂⟩ := hwf.swap_some
          (show (pos - 1) / 2 < l.length by
            have : (pos - 1) / 2 < pos := hppos
            omega) hposL
        rw [hsw]
        have hU' := hU.step_up hpos hposL hstop
        obtain ⟨cv', l', heq, hwf', hlen', hheap⟩ :=
          ih cv₂ (swapL l ((pos - 1) / 2) pos) ((pos - 1) / 2) hwf₂ hU'
            (by have : (pos - 1) / 2 < pos := hppos; omega)
        exact ⟨cv', l', heq, hwf', by rw [hlen', length_swapL], hheap⟩

/-! ## Heap-level operation specifications -/

/-- Invariant of a `BinaryHeap` state: some logical element list satisfies
both the packing invariant and the max-heap property. -/
def Inv [LinearOrder α] (h : BinaryHeap α) : Prop :=
  ∃ l, WF h.elements l ∧ IsHeap l

theorem BinaryHeap.sift_down_spec [LinearOrder α] {cv : ChildrenVector α}
    {l : List α} (hwf : WF cv l) (pos : Nat) (hD : AlmostHeapD l pos)
    (hbound : 2 * l.length ≤ u32MAX + 1) (hpos : 2 * pos + 1 ≤ u32MAX) :
    ∃ cv' l', (BinaryHeap.mk cv : BinaryHeap α).sift_down pos = some ⟨cv'⟩ ∧
      WF cv' l' ∧ l'.length = l.length ∧ IsHeap l' := by
  obtain ⟨cv', l', heq, hwf', hlen', hheap⟩ :=
    sift_down_loop_spec l.length cv l pos hwf hD (by omega) hbound hpos
  refine ⟨cv', l', ?_, hwf', hlen', hheap⟩
  unfold BinaryHeap.sift_down
  show (sift_down_loop cv.len cv.len cv pos).map _ = _
  rw [hwf.len_eq, heq]
  rfl

theorem BinaryHeap.sift_down_partial [LinearOrder α] {cv : ChildrenVector α}
    {l : List α} {h' : BinaryHeap α} (hwf : WF cv l) (pos : Nat)
    (hD : AlmostHeapD l pos)
    (heq : (BinaryHeap.mk cv : BinaryHeap α).sift_down pos = some h') :
    ∃ l', WF h'.elements l' ∧ l'.length = l.length ∧ IsHeap l' := by
  have heq' : (sift_down_loop cv.len cv.len cv pos).map BinaryHeap.mk
      = some h' := heq
  rw [hwf.len_eq] at heq'
  cases hl : sift_down_loop l.length l.length cv pos with
  | none =>
    rw [hl] at heq'
    cases heq'
  | some cv'' =>
    rw [hl] at heq'
    simp only [Option.map_some'] at heq'
    obtain ⟨l', hwf', hlen', hheap⟩ :=
      sift_down_loop_partial l.length cv cv'' l pos hwf hD hl
    cases heq'
    exact ⟨l', hwf', hlen', hheap⟩

theorem BinaryHeap.sift_up_spec [LinearOrder α] {cv : ChildrenVector α}
    {l : List α} (hwf : WF cv l) (pos : Nat) (hU : AlmostHeapU l pos) :
    ∃ cv' l', (BinaryHeap.mk cv : BinaryHeap α).sift_up pos = some ⟨cv'⟩ ∧
      WF cv' l' ∧ l'.length = l.length ∧ IsHeap l' := by
  obtain ⟨cv', l', heq, hwf', hlen', hheap⟩ :=
    sift_up_loop_spec pos cv l pos hwf hU (le_refl pos)
  refine ⟨cv', l', ?_, hwf', hlen', hheap⟩
  unfold BinaryHeap.sift_up
  show (sift_up_loop pos cv pos).map _ = _
  rw [heq]
  rfl

theorem AlmostHeapD.pop_prep [LinearOrder α] {l : List α}
    (hD : AlmostHeapD l 0) :
    AlmostHeapD ((swapL l 0 (l.length - 1)).dropLast) 0 := by
  constructor
  · intro i h1 h2 hpi
    rw [List.length_dropLast, length_swapL] at h2
    have hL : 2 ≤ l.length := by omega
    have hget := swapL_getElem? l (show 0 < l.length by omega)
      (show l.length - 1 < l.length by omega)
    have hpl : parentIdx i < i := parentIdx_lt h1
    rw [List.getElem?_dropLast, List.getElem?_dropLast, length_swapL,
      if_pos (by omega), if_pos (by omega), hget i, if_neg (by omega),
      if_neg (by omega), hget (parentIdx i), if_neg (by omega),
      if_neg (by omega)]
    exact hD.1 i h1 (by omega) hpi
  · intro h0
    exact absurd h0 (by omega)

/-- `pop` on a state whose logical length is at most `2^31 + 1` (so that
the `sift_down` index arithmetic cannot overflow): it never panics, returns
the original root, and leaves a heap one element shorter. -/
theorem pop_spec [LinearOrder α] {cv : ChildrenVector α} {l : List α}
    (hwf : WF cv l) (hD : AlmostHeapD l 0) (hbound : l.length ≤ 2147483649) :
    ∃ cv', (BinaryHeap.mk cv : BinaryHeap α).pop = some (l[0]?, ⟨cv'⟩) ∧
      ∃ l', WF cv' l' ∧ IsHeap l' ∧ l'.length = l.length - 1 := by
  have hU : u32MAX = 4294967295 := rfl
  by_cases hL : l.length = 0
  · have hnil := List.length_eq_zero.mp hL
    subst hnil
    have hsr := cv.swap_remove_empty (by rw [hwf.len_eq]; rfl) 0
    obtain ⟨cv₃, l₃, hsd, hwf₃, hlen₃, hheap₃⟩ :=
      BinaryHeap.sift_down_spec hwf 0 hD
        (by simp only [List.length_nil]; omega) (by omega)
    refine ⟨cv₃, ?_, ⟨l₃, hwf₃, hheap₃, by simp at hlen₃ ⊢; exact hlen₃⟩⟩
    unfold BinaryHeap.pop
    simp only [show (BinaryHeap.mk cv : BinaryHeap α).elements = cv from rfl,
      hsr, hsd]
    rfl
  · obtain ⟨cv₂, hsr, hwf₂⟩ := hwf.swap_remove_eq 0 (by omega)
    have hD₂ := hD.pop_prep
    obtain ⟨cv₃, l₃, hsd, hwf₃, hlen₃, hheap₃⟩ :=
      BinaryHeap.sift_down_spec hwf₂ 0 hD₂
        (by simp only [List.length_dropLast, length_swapL]; omega) (by omega)
    refine ⟨cv₃, ?_, ⟨l₃, hwf₃, hheap₃, by
      rw [hlen₃, List.length_dropLast, length_swapL]⟩⟩
    unfold BinaryHeap.pop
    simp only [show (BinaryHeap.mk cv : BinaryHeap α).elements = cv from rfl,
      hsr, hsd]

/-- Partial correctness of `pop`, with no length bound: if it returns at
all, the returned value is the original root and the new state is a heap
one element shorter. -/
theorem pop_partial [LinearOrder α] {cv : ChildrenVector α} {l : List α}
    {res : Option α} {h' : BinaryHeap α} (hwf : WF cv l)
    (hD : AlmostHeapD l 0)
    (heq : (BinaryHeap.mk cv : BinaryHeap α).pop = some (res, h')) :
    res = l[0]? ∧
    ∃ l', WF h'.elements l' ∧ IsHeap l' ∧ l'.length = l.length - 1 := by
  by_cases hL : l.length = 0
  · have hnil := List.length_eq_zero.mp hL
    subst hnil
    have hsr := cv.swap_remove_empty (by rw [hwf.len_eq]; rfl) 0
    unfold BinaryHeap.pop at heq
    cases hsd : (BinaryHeap.mk cv : BinaryHeap α).sift_down 0 with
    | none =>
      simp only [show (BinaryHeap.mk cv : BinaryHeap α).elements = cv from
        rfl, hsr, hsd] at heq
      cases heq
    | some h'' =>
      simp only [show (BinaryHeap.mk cv : BinaryHeap α).elements = cv from
        rfl, hsr, hsd] at heq
      cases heq
      obtain ⟨l', hwf', hlen', hheap⟩ :=
        BinaryHeap.sift_down_partial hwf 0 hD hsd
      exact ⟨rfl, l', hwf', hheap, by simp at hlen' ⊢; exact hlen'⟩
  · obtain ⟨cv₂, hsr, hwf₂⟩ := hwf.swap_remove_eq 0 (by omega)
    unfold BinaryHeap.pop at heq
    cases hsd : (BinaryHeap.mk cv₂ : BinaryHeap α).sift_down 0 with
    | none =>
      simp only [show (BinaryHeap.mk cv : BinaryHeap α).elements = cv from
        rfl, hsr, hsd] at heq
      cases heq
    | some h'' =>
      simp only [show (BinaryHeap.mk cv : BinaryHeap α).elements = cv from
        rfl, hsr, hsd] at heq
      cases heq
      obtain ⟨l', hwf', hlen', hheap⟩ :=
        BinaryHeap.sift_down_partial hwf₂ 0 hD.pop_prep hsd
      refine ⟨rfl, l', hwf', hheap, ?_⟩
      rw [hlen', List.length_dropLast, length_swapL]

theorem push_spec [LinearOrder α] {cv : ChildrenVector α} {l : List α}
    (hwf : WF cv l) (hheap : IsHeap l) (v : α) (hcap : l.length < u32MAX) :
    ∃ cv' l', (BinaryHeap.mk cv : BinaryHeap α).push v = some ⟨cv'⟩ ∧
      WF cv' l' ∧ IsHeap l' ∧ l'.length = l.length + 1 := by
  obtain ⟨cv₁, hpush, hwf₁⟩ := hwf.push_some v hcap
  have hU : AlmostHeapU (l ++ [v]) l.length := hheap.almostU_append v
  obtain ⟨cv', l', hsu, hwf', hlen', hheap'⟩ :=
    BinaryHeap.sift_up_spec hwf₁ l.length hU
  refine ⟨cv', l', ?_, hwf', hheap', by rw [hlen']; simp⟩
  unfold BinaryHeap.push
  simp only [show (BinaryHeap.mk cv : BinaryHeap α).elements = cv from rfl,
    hpush]
  show (BinaryHeap.mk cv₁ : BinaryHeap α).sift_up
    (BinaryHeap.mk cv : BinaryHeap α).len = some ⟨cv'⟩
  rw [show (BinaryHeap.mk cv : BinaryHeap α).len = l.length from hwf.len_eq]
  exact hsu

/-! ## The guard lifecycle -/

/-- Invariant of a live `PeekMut` guard: the resift flag is still set, the
underlying elements satisfy the packing invariant for a non-empty list whose
heap ordering holds everywhere except possibly at the root. -/
def GInv [LinearOrder α] (g : PeekMut α) : Prop :=
  g.sift = true ∧ ∃ l, WF g.heap.elements l ∧ l ≠ [] ∧ AlmostHeapD l 0

theorem WF.set_root {cv : ChildrenVector α} {l : List α} (h : WF cv l)
    (hne : 0 < l.length) (v : α) :
    WF (cv.set_child 0 (some v)) (l.set 0 v) := by
  have hc : 0 / 2 < cv.children.length := by
    rw [h.children_length]
    omega
  refine ⟨by rw [set_child_len, h.len_eq]; simp,
    by simp only [List.length_set]; exact h.len_le, ?_⟩
  rw [set_child_flatten _ _ _ hc, h.flatten_eq]
  apply List.ext_getElem?
  intro i
  have hpad := pad_getElem? (l.set 0 v) i
  simp only [List.length_set] at hpad
  simp only [List.length_set]
  rw [hpad]
  by_cases hi0 : i = 0
  · subst hi0
    rw [getElem?_set_self_of_lt _ _ _ (by simp; omega), if_pos (by omega),
      getElem?_set_self_of_lt _ _ _ hne]
  · rw [List.getElem?_set_ne (by omega), pad_getElem?,
      List.getElem?_set_ne (by omega)]

theorem AlmostHeapD.set_root_almost [LinearOrder α] {l : List α}
    (hD : AlmostHeapD l 0) (v : α) : AlmostHeapD (l.set 0 v) 0 := by
  constructor
  · intro i h1 h2 hpi
    rw [List.length_set] at h2
    rw [List.getElem?_set_ne (by omega), List.getElem?_set_ne (by omega)]
    exact hD.1 i h1 h2 hpi
  · intro h0
    exact absurd h0 (by omega)

theorem GInv.write_spec [LinearOrder α] {g : PeekMut α} (hg : GInv g) (v : α) :
    ∃ g', g.write v = some g' ∧ GInv g' := by
  obtain ⟨hsift, l, hwf, hne, hD⟩ := hg
  have hfm : g.heap.elements.first_mut = l[0]? := hwf.first_mut_eq
  have hlen0 : 0 < l.length := List.length_pos.mpr hne
  obtain ⟨x, hx⟩ : ∃ x, l[0]? = some x := ⟨_, List.getElem?_eq_getElem hlen0⟩
  refine ⟨⟨⟨g.heap.elements.set_child 0 (some v)⟩, g.sift⟩, ?_, ?_⟩
  · unfold PeekMut.write
    rw [hfm, hx]
  · refine ⟨hsift, l.set 0 v, hwf.set_root hlen0 v, ?_, hD.set_root_almost v⟩
    intro hc
    have h2 := congrArg List.length hc
    simp only [List.length_set, List.length_nil] at h2
    omega

/-- One write through the guard's `DerefMut` reference. -/
def GuardStep [LinearOrder α] (g g' : PeekMut α) : Prop :=
  ∃ v, g.write v = some g'

/-- Guard states reachable from a freshly constructed guard by any number of
writes through its `DerefMut` reference. -/
def GuardReach [LinearOrder α] : PeekMut α → PeekMut α → Prop :=
  Relation.ReflTransGen GuardStep

theorem GInv.guard_reach [LinearOrder α] {g g' : PeekMut α} (hg : GInv g)
    (hr : GuardReach g g') : GInv g' := by
  induction hr with
  | refl => exact hg
  | tail hr hstep ih =>
    obtain ⟨v, hv⟩ := hstep
    obtain ⟨g'', hw, hg''⟩ := ih.write_spec v
    rw [hv] at hw
    cases hw
    exact hg''

/-- Explicit consumption of the guard is exactly a heap `pop` that returns
the root: the two results determine each other. -/
theorem PeekMut.pop_eq_heap_pop [LinearOrder α] (g : PeekMut α) (x : α)
    (h₂ : BinaryHeap α) :
    PeekMut.pop g = some (x, h₂) ↔ g.heap.pop = some (some x, h₂) := by
  unfold PeekMut.pop
  cases hp : g.heap.pop with
  | none => simp
  | some p =>
    obtain ⟨y, hh⟩ := p
    cases y with
    | none => simp
    | some v => simp

/-- A normal guard release on a heap of length at most `2^31` (so that the
`sift_down` index arithmetic cannot overflow): the `sift_down(0)` returns
and restores the full heap property. -/
theorem GInv.drop_spec [LinearOrder α] {g : PeekMut α} (hg : GInv g)
    (hbound : g.heap.len ≤ 2147483648) :
    ∃ cv' l', g.drop = some ⟨cv'⟩ ∧ WF cv' l' ∧ IsHeap l' ∧
      l'.length = g.heap.len := by
  have hU : u32MAX = 4294967295 := rfl
  obtain ⟨hsift, l, hwf, hne, hD⟩ := hg
  have hlen : g.heap.len = l.length := hwf.len_eq
  obtain ⟨cv', l', hsd, hwf', hlen', hheap⟩ :=
    BinaryHeap.sift_down_spec hwf 0 hD (by omega) (by omega)
  refine ⟨cv', l', ?_, hwf', hheap, by rw [hlen']; exact hwf.len_eq.symm⟩
  unfold PeekMut.drop
  rw [hsift]
  simp only [if_true]
  exact hsd

/-- Partial correctness of the guard's normal release, with no length bound:
if the release's `sift_down(0)` returns, the result is a heap of the same
length. -/
theorem GInv.drop_partial [LinearOrder α] {g : PeekMut α} {h' : BinaryHeap α}
    (hg : GInv g) (heq : g.drop = some h') :
    ∃ l', WF h'.elements l' ∧ IsHeap l' ∧ l'.length = g.heap.len := by
  obtain ⟨hsift, l, hwf, hne, hD⟩ := hg
  unfold PeekMut.drop at heq
  rw [hsift] at heq
  simp only [if_true] at heq
  have heq' : (BinaryHeap.mk g.heap.elements : BinaryHeap α).sift_down 0
      = some h' := heq
  obtain ⟨l', hwf', hlen', hheap⟩ := BinaryHeap.sift_down_partial hwf 0 hD heq'
  exact ⟨l', hwf', hheap, by rw [hlen']; exact hwf.len_eq.symm⟩

/-- Explicit guard consumption on a heap of length at most `2^31 + 1`: the
underlying `pop` returns the root and leaves a heap one element shorter. -/
theorem GInv.peek_pop_spec [LinearOrder α] {g : PeekMut α} (hg : GInv g)
    (hbound : g.heap.len ≤ 2147483649) :
    ∃ x cv' l', PeekMut.pop g = some (x, ⟨cv'⟩) ∧
      g.heap.pop = some (some x, ⟨cv'⟩) ∧
      WF cv' l' ∧ IsHeap l' ∧ l'.length = g.heap.len - 1 := by
  obtain ⟨hsift, l, hwf, hne, hD⟩ := hg
  have hlen : g.heap.len = l.length := hwf.len_eq
  obtain ⟨cv', hpop, l', hwf', hheap', hlen'⟩ := Ink.pop_spec hwf hD (by omega)
  have hlen0 : 0 < l.length := List.length_pos.mpr hne
  obtain ⟨x, hx⟩ : ∃ x, l[0]? = some x := ⟨_, List.getElem?_eq_getElem hlen0⟩
  have hpop' : g.heap.pop = some (some x, ⟨cv'⟩) := by
    rw [show g.heap.pop = (BinaryHeap.mk g.heap.elements : BinaryHeap α).pop
      from rfl, hpop, hx]
  refine ⟨x, cv', l', ?_, hpop', hwf', hheap', by
    rw [hlen']
    rw [show g.heap.len = g.heap.elements.len from rfl, hwf.len_eq]⟩
  unfold PeekMut.pop
  rw [hpop']

/-- Partial correctness of explicit guard consumption, with no length bound:
if `PeekMut::pop` returns, the underlying heap `pop` returned the same root
and new state, and that state is a heap one element shorter. -/
theorem GInv.peek_pop_partial [LinearOrder α] {g : PeekMut α} {x : α}
    {h' : BinaryHeap α} (hg : GInv g)
    (heq : PeekMut.pop g = some (x, h')) :
    g.heap.pop = some (some x, h') ∧
    ∃ l', WF h'.elements l' ∧ IsHeap l' ∧ l'.length = g.heap.len - 1 := by
  have hp : g.heap.pop = some (some x, h') :=
    (PeekMut.pop_eq_heap_pop g x h').mp heq
  obtain ⟨hsift, l, hwf, hne, hD⟩ := hg
  have hp' : (BinaryHeap.mk g.heap.elements : BinaryHeap α).pop
      = some (some x, h') := hp
  obtain ⟨-, l', hwf', hheap', hlen'⟩ := pop_partial hwf hD hp'
  refine ⟨hp, l', hwf', hheap', ?_⟩
  rw [hlen', show g.heap.len = g.heap.elements.len from rfl, hwf.len_eq]

/-! ## Reachable heap states -/

/-- One heap operation, as the spec's reachability clause names them: `push`,
`pop`, `clear`, and a full `peek_mut` guard lifecycle (construction, any
number of writes through the guard, then either a normal drop or explicit
consumption through `PeekMut::pop`). -/
inductive Step [LinearOrder α] : BinaryHeap α → BinaryHeap α → Prop
  | push (v : α) (h h' : BinaryHeap α) : h.push v = some h' → Step h h'
  | pop (x : Option α) (h h' : BinaryHeap α) : h.pop = some (x, h') → Step h h'
  | clear (h : BinaryHeap α) : Step h h.clear
  | peek_mut_drop (h h' : BinaryHeap α) (g g' : PeekMut α) :
      h.peek_mut = some g → GuardReach g g' → g'.drop = some h' → Step h h'
  | peek_mut_pop (h h' : BinaryHeap α) (g g' : PeekMut α) (x : α) :
      h.peek_mut = some g → GuardReach g g' → PeekMut.pop g' = some (x, h') →
      Step h h'

/-- Heap states reachable from the empty heap. -/
def Reachable [LinearOrder α] (h : BinaryHeap α) : Prop :=
  Relation.ReflTransGen Step BinaryHeap.new h

theorem Inv.new [LinearOrder α] : Inv (BinaryHeap.new : BinaryHeap α) :=
  ⟨[], ⟨rfl, Nat.zero_le _, rfl⟩, fun i _ h2 => by simp at h2⟩

theorem peek_mut_of_some [LinearOrder α] {h : BinaryHeap α} {g : PeekMut α}
    (hpm : h.peek_mut = some g) : g = ⟨h, true⟩ ∧ h.is_empty = false := by
  unfold BinaryHeap.peek_mut at hpm
  by_cases he : h.is_empty
  · rw [if_pos he] at hpm
    cases hpm
  · rw [if_neg he] at hpm
    exact ⟨(Option.some_injective _ hpm).symm, by
      cases hb : h.is_empty
      · rfl
      · exact absurd hb he⟩

theorem Inv.ginv_of_peek_mut [LinearOrder α] {h : BinaryHeap α}
    {g : PeekMut α} (hi : Inv h) (hpm : h.peek_mut = some g) : GInv g := by
  obtain ⟨l, hwf, hheap⟩ := hi
  obtain ⟨hg, hne⟩ := peek_mut_of_some hpm
  subst hg
  refine ⟨rfl, l, hwf, ?_, hheap.almostD 0⟩
  intro hc
  subst hc
  unfold BinaryHeap.is_empty ChildrenVector.is_empty at hne
  rw [hwf.len_eq] at hne
  simp at hne

theorem Inv.step [LinearOrder α] {h h' : BinaryHeap α} (hi : Inv h)
    (hs : Step h h') : Inv h' := by
  obtain ⟨l, hwf, hheap⟩ := hi
  cases hs with
  | push v _ _ hpush =>
    by_cases hcap : l.length < u32MAX
    · obtain ⟨cv', l', hp, hwf', hheap', _⟩ := push_spec hwf hheap v hcap
      have hpush' : (BinaryHeap.mk h.elements : BinaryHeap α).push v
          = some h' := hpush
      rw [hp] at hpush'
      have h2 := Option.some_injective _ hpush'
      subst h2
      exact ⟨l', hwf', hheap'⟩
    · exfalso
      have hn : h.elements.push v = none :=
        ChildrenVector.push_none v (by rw [hwf.len_eq]; omega)
      unfold BinaryHeap.push at hpush
      rw [hn] at hpush
      cases hpush
  | pop x _ _ hpop =>
    have hpop' : (BinaryHeap.mk h.elements : BinaryHeap α).pop
        = some (x, h') := hpop
    obtain ⟨-, l', hwf', hheap', -⟩ :=
      pop_partial hwf (hheap.almostD 0) hpop'
    exact ⟨l', hwf', hheap'⟩
  | clear _ =>
    exact ⟨[], hwf.clear_wf, fun i _ h2 => by simp at h2⟩
  | peek_mut_drop _ _ g g' hpm hreach hdrop =>
    have hgi : GInv g := Inv.ginv_of_peek_mut ⟨l, hwf, hheap⟩ hpm
    have hgi' := hgi.guard_reach hreach
    obtain ⟨l', hwf', hheap', -⟩ := hgi'.drop_partial hdrop
    exact ⟨l', hwf', hheap'⟩
  | peek_mut_pop _ _ g g' x hpm hreach hpop =>
    have hgi : GInv g := Inv.ginv_of_peek_mut ⟨l, hwf, hheap⟩ hpm
    have hgi' := hgi.guard_reach hreach
    obtain ⟨-, l', hwf', hheap', -⟩ := hgi'.peek_pop_partial hpop
    exact ⟨l', hwf', hheap'⟩

theorem Reachable.inv [LinearOrder α] {h : BinaryHeap α} (hr : Reachable h) :
    Inv h := by
  induction hr with
  | refl => exact Inv.new
  | tail _ hstep ih => exact ih.step hstep

/-! ## Shared helpers for the claim theorems -/

theorem getElem?_isSome_iff {l : List α} {i : Nat} :
    (l[i]?).isSome = true ↔ i < l.length := by
  constructor
  · intro hs
    by_contra hc
    rw [List.getElem?_eq_none (by omega)] at hs
    simp at hs
  · intro hlt
    rw [List.getElem?_eq_getElem hlt]
    rfl

/-- In a max-heap every element is below the root. -/
theorem IsHeap.le_root [LinearOrder α] {l : List α} (h : IsHeap l) :
    ∀ i, i < l.length → optLe l[i]? l[0]? = true := by
  intro i
  induction i using Nat.strong_induction_on with
  | _ i ih =>
    intro hiL
    by_cases hi0 : i = 0
    · subst hi0
      exact optLe_refl _
    · have h0 : 0 < i := by omega
      have hp := parentIdx_lt h0
      exact optLe_trans (h i h0 hiL) (ih (parentIdx i) hp (by omega))

/-- Example state: the result of pushing 5 into an empty heap. -/
def exHeap1 : BinaryHeap Nat := ⟨⟨1, [Children.new (some 5) none]⟩⟩

theorem reachable_exHeap1 : Reachable exHeap1 :=
  Relation.ReflTransGen.tail Relation.ReflTransGen.refl
    (Step.push 5 BinaryHeap.new exHeap1 (by decide))

/-- Example state: the result of pushing 2 then 1 into an empty heap. -/
def exHeap2 : BinaryHeap Nat := ⟨⟨2, [Children.new (some 2) (some 1)]⟩⟩

theorem reachable_exHeap2 : Reachable exHeap2 :=
  Relation.ReflTransGen.tail
    (Relation.ReflTransGen.tail Relation.ReflTransGen.refl
      (Step.push 2 BinaryHeap.new ⟨⟨1, [Children.new (some 2) none]⟩⟩
        (by decide)))
    (Step.push 1 ⟨⟨1, [Children.new (some 2) none]⟩⟩ exHeap2 (by decide))

/-! ## The claims -/

/-- C1: for every heap state reachable from the empty heap by push, pop,
clear and peek_mut lifecycles (guard dropped normally or explicitly
consumed), and every non-root logical index `i` with `0 < i < length`, the
element stored at index `⌊(i-1)/2⌋` is ≥ the element stored at index `i`. -/
theorem C1_heap_property [LinearOrder α] (h : BinaryHeap α) (hr : Reachable h)
    (i : Nat) (h0 : 0 < i) (hi : i < h.len) :
    ∃ x y, h.elements.get ((i - 1) / 2) = some x ∧
      h.elements.get i = some y ∧ y ≤ x := by
  obtain ⟨l, hwf, hheap⟩ := hr.inv
  have hiL : i < l.length := by
    rw [← hwf.len_eq]
    exact hi
  have hpL : (i - 1) / 2 < l.length := by omega
  obtain ⟨x, hx⟩ : ∃ x, l[(i - 1) / 2]? = some x :=
    ⟨_, List.getElem?_eq_getElem hpL⟩
  obtain ⟨y, hy⟩ : ∃ y, l[i]? = some y := ⟨_, List.getElem?_eq_getElem hiL⟩
  have hle := hheap i h0 hiL
  unfold parentIdx at hle
  rw [hx, hy] at hle
  exact ⟨x, y, by rw [hwf.get_eq]; exact hx, by rw [hwf.get_eq]; exact hy,
    optLe_some_some.mp hle⟩

theorem C1_heap_property_witness :
    ∃ x y, exHeap2.elements.get ((1 - 1) / 2) = some x ∧
      exHeap2.elements.get 1 = some y ∧ y ≤ x :=
  C1_heap_property exHeap2 reachable_exHeap2 1 (by decide) (by decide)

/-- C7: pushing 5, 1, 4, 2, 8, 3 in that order into an empty heap and then
popping until empty yields exactly 8, 5, 4, 3, 2, 1. -/
theorem C7_ordering :
    ((((((((BinaryHeap.new : BinaryHeap Nat).push 5).bind
      (fun h => h.push 1)).bind (fun h => h.push 4)).bind
      (fun h => h.push 2)).bind (fun h => h.push 8)).bind
      (fun h => h.push 3)).map BinaryHeap.drain) = some [8, 5, 4, 3, 2, 1] := by
  decide

/-- C9: for every index `a`, including out-of-bounds ones, `swap(a, a)`
returns normally (no panic) and leaves the children vector completely
unchanged, because the equal-index early return precedes the bounds
assertions. -/
theorem C9_swap_self_noop (cv : ChildrenVector α) (a : Nat) :
    cv.swap a a = some cv :=
  cv.swap_self a

/-- The two slots of cell `j` are the flat slots `2*j` and `2*j+1`. -/
theorem cell_slots {cv : ChildrenVector α} {j : Nat} {c : Children α}
    (hc : cv.children[j]? = some c) :
    some c.first = (flattenCells cv.children)[2 * j]? ∧
    some c.second = (flattenCells cv.children)[2 * j + 1]? := by
  constructor
  · rw [flattenCells_getElem?, show 2 * j / 2 = j by omega, hc]
    simp [Children.child, Nat.mul_mod_right]
  · rw [flattenCells_getElem?, show (2 * j + 1) / 2 = j by omega, hc]
    have hm : (2 * j + 1) % 2 = 1 := by omega
    simp [Children.child, hm]

/-- C2: in every reachable state of logical length L the cell vector holds
exactly ⌈L/2⌉ cells, logical index i < L resolves through cell ⌊i/2⌋ at slot
i mod 2 to the stored element, and every cell except possibly the last has
occupancy 2. -/
theorem C2_packing [LinearOrder α] (h : BinaryHeap α) (hr : Reachable h) :
    h.elements.children.length = (h.len + 1) / 2 ∧
    (∀ i, i < h.len → ∃ x,
      (h.elements.children[get_children_storage_index i]?).map
        (fun c => c.child (get_child_pos i)) = some (some x) ∧
      h.elements.get i = some x) ∧
    (∀ j c, j + 1 < h.elements.children.length →
      h.elements.children[j]? = some c → c.count = 2) := by
  obtain ⟨l, hwf, _⟩ := hr.inv
  have hlen : h.len = l.length := hwf.len_eq
  refine ⟨by rw [hlen]; exact hwf.children_length, ?_, ?_⟩
  · intro i hi
    rw [hlen] at hi
    obtain ⟨x, hx⟩ : ∃ x, l[i]? = some x := ⟨_, List.getElem?_eq_getElem hi⟩
    refine ⟨x, ?_, by rw [hwf.get_eq, hx]⟩
    simp only [get_children_storage_index, get_child_pos]
    rw [← flattenCells_getElem?, hwf.flatten_getElem?, if_pos (by omega), hx]
  · intro j c hj hc
    have hchL := hwf.children_length
    have h2jlt : 2 * j + 1 < l.length := by omega
    obtain ⟨h1, h2⟩ := cell_slots hc
    rw [hwf.flatten_getElem? (2 * j), if_pos (by omega)] at h1
    rw [hwf.flatten_getElem? (2 * j + 1), if_pos (by omega)] at h2
    obtain ⟨x1, hx1⟩ : ∃ x, l[2 * j]? = some x :=
      ⟨_, List.getElem?_eq_getElem (by omega)⟩
    obtain ⟨x2, hx2⟩ : ∃ x, l[2 * j + 1]? = some x :=
      ⟨_, List.getElem?_eq_getElem h2jlt⟩
    have hf : c.first = some x1 := by
      have h3 := Option.some_injective _ h1
      rw [h3, hx1]
    have hs : c.second = some x2 := by
      have h3 := Option.some_injective _ h2
      rw [h3, hx2]
    unfold Children.count
    rw [hf, hs]
    simp

theorem C2_packing_witness :
    exHeap2.elements.children.length = (exHeap2.len + 1) / 2 ∧
    (∀ i, i < exHeap2.len → ∃ x,
      (exHeap2.elements.children[get_children_storage_index i]?).map
        (fun c => c.child (get_child_pos i)) = some (some x) ∧
      exHeap2.elements.get i = some x) ∧
    (∀ j c, j + 1 < exHeap2.elements.children.length →
      exHeap2.elements.children[j]? = some c → c.count = 2) :=
  C2_packing exHeap2 reachable_exHeap2

/-- C4: in every reachable state with length L, `get i` and `get_mut i`
return a value exactly when `i < L` and return `None` when `i ≥ L`; both
resolve to the same element and neither performs any write (their embeddings
are pure reads). -/
theorem C4_get_bounds [LinearOrder α] (h : BinaryHeap α) (hr : Reachable h)
    (i : Nat) :
    ((h.elements.get i).isSome = true ↔ i < h.len) ∧
    ((h.elements.get_mut i).isSome = true ↔ i < h.len) ∧
    h.elements.get_mut i = h.elements.get i := by
  obtain ⟨l, hwf, _⟩ := hr.inv
  have hlen : h.len = l.length := hwf.len_eq
  rw [hwf.get_eq, hwf.get_mut_eq, show h.len = h.elements.len from rfl,
    hwf.len_eq]
  exact ⟨getElem?_isSome_iff, getElem?_isSome_iff, rfl⟩

theorem C4_get_bounds_witness :
    ((exHeap1.elements.get 0).isSome = true ↔ 0 < exHeap1.len) ∧
    ((exHeap1.elements.get_mut 0).isSome = true ↔ 0 < exHeap1.len) ∧
    exHeap1.elements.get_mut 0 = exHeap1.elements.get 0 :=
  C4_get_bounds exHeap1 reachable_exHeap1 0

/-- C5: `swap(a, b)` returns unchanged when `a = b` (the equal-index check
runs first); otherwise it panics, with no prior mutation, when either index
is ≥ the logical length; and for two distinct in-bounds indices it exchanges
exactly the elements at `a` and `b`, leaving the length and every other
logical slot unchanged. -/
theorem C5_swap_contract [LinearOrder α] (cv : ChildrenVector α) (l : List α)
    (hwf : WF cv l) (a b : Nat) :
    (a = b → cv.swap a b = some cv) ∧
    (a ≠ b → (cv.len ≤ a ∨ cv.len ≤ b) → cv.swap a b = none) ∧
    (a < cv.len → b < cv.len →
      ∃ cv', cv.swap a b = some cv' ∧ cv'.len = cv.len ∧
        cv'.get a = cv.get b ∧ cv'.get b = cv.get a ∧
        (∀ i, i ≠ a → i ≠ b → cv'.get i = cv.get i)) := by
  refine ⟨fun hab => by rw [hab]; exact cv.swap_self b,
    fun hab hoob => cv.swap_oob hab hoob, fun ha hb => ?_⟩
  rw [hwf.len_eq] at ha hb
  obtain ⟨cv', hsw, hwf'⟩ := hwf.swap_some ha hb
  refine ⟨cv', hsw, by rw [hwf'.len_eq, length_swapL, hwf.len_eq], ?_, ?_, ?_⟩
  · rw [hwf'.get_eq, hwf.get_eq, swapL_getElem? l ha hb]
    by_cases hab : a = b
    · subst hab
      simp
    · rw [if_neg hab, if_pos rfl]
  · rw [hwf'.get_eq, hwf.get_eq, swapL_getElem? l ha hb, if_pos rfl]
  · intro i hia hib
    rw [hwf'.get_eq, hwf.get_eq, swapL_getElem? l ha hb, if_neg hib, if_neg hia]

theorem C5_swap_contract_witness :
    ((0 : Nat) = 1 →
      (⟨2, [Children.new (some 5) (some 3)]⟩ : ChildrenVector Nat).swap 0 1 =
        some ⟨2, [Children.new (some 5) (some 3)]⟩) ∧
    ((0 : Nat) ≠ 1 →
      ((⟨2, [Children.new (some 5) (some 3)]⟩ : ChildrenVector Nat).len ≤ 0 ∨
        (⟨2, [Children.new (some 5) (some 3)]⟩ : ChildrenVector Nat).len ≤ 1) →
      (⟨2, [Children.new (some 5) (some 3)]⟩ : ChildrenVector Nat).swap 0 1 =
        none) ∧
    (0 < (⟨2, [Children.new (some 5) (some 3)]⟩ : ChildrenVector Nat).len →
      1 < (⟨2, [Children.new (some 5) (some 3)]⟩ : ChildrenVector Nat).len →
      ∃ cv', (⟨2, [Children.new (some 5) (some 3)]⟩ :
          ChildrenVector Nat).swap 0 1 = some cv' ∧
        cv'.len = (⟨2, [Children.new (some 5) (some 3)]⟩ :
          ChildrenVector Nat).len ∧
        cv'.get 0 = (⟨2, [Children.new (some 5) (some 3)]⟩ :
          ChildrenVector Nat).get 1 ∧
        cv'.get 1 = (⟨2, [Children.new (some 5) (some 3)]⟩ :
          ChildrenVector Nat).get 0 ∧
        (∀ i, i ≠ 0 → i ≠ 1 → cv'.get i =
          (⟨2, [Children.new (some 5) (some 3)]⟩ :
            ChildrenVector Nat).get i)) :=
  C5_swap_contract ⟨2, [Children.new (some 5) (some 3)]⟩ [5, 3]
    ⟨rfl, by decide, by simp [flattenCells, Children.new]⟩ 0 1

/-! ## A reachable heap on which `pop` overflows

`push` accepts heaps of up to `u32::MAX` elements, but the `u32` index
computation `2 * pos + 1` of `sift_down` overflows once the descent reaches
a position of `2^31` or more, which in-range heaps are long enough to
force. The witness below is the heap built by pushing 1 a total of
`4294967294` times and then pushing 0 once; `pop` moves the 0 to the root
and the descent doubles its position past `2^31`. -/

theorem flattenCells_append (xs ys : List (Children α)) :
    flattenCells (xs ++ ys) = flattenCells xs ++ flattenCells ys := by
  induction xs with
  | nil => rfl
  | cons c cs ih =>
    simp only [List.cons_append]
    rw [show flattenCells (c :: (cs ++ ys))
        = c.first :: c.second :: flattenCells (cs ++ ys) from rfl,
      show flattenCells (c :: cs)
        = c.first :: c.second :: flattenCells cs from rfl, ih]
    rfl

theorem flattenCells_replicate_same (n : Nat) (a : Option α) :
    flattenCells (List.replicate n (Children.new a a)) =
      List.replicate (2 * n) a := by
  induction n with
  | zero => rfl
  | succ n ih =>
    rw [List.replicate_succ,
      show flattenCells (Children.new a a
          :: List.replicate n (Children.new a a))
        = a :: a :: flattenCells (List.replicate n (Children.new a a))
        from rfl,
      ih, show 2 * (n + 1) = 2 * n + 1 + 1 by ring, List.replicate_succ,
      List.replicate_succ]

theorem set_replicate_last (k : Nat) (c d e : α) :
    (List.replicate k c ++ [d]).set k e = List.replicate k c ++ [e] := by
  rw [List.set_append_right _ _ (by simp), List.length_replicate,
    Nat.sub_self]
  rfl

/-- Logical element list of the overflow example: `u32MAX - 1` ones followed
by a single zero. -/
def bigList : List Nat := List.replicate 4294967294 1 ++ [0]

/-- Cells of the overflow example heap. -/
def bigCells : List (Children Nat) :=
  List.replicate 2147483647 (Children.new (some 1) (some 1)) ++
    [Children.new (some 0) none]

/-- The overflow example heap: the state after pushing 1 a total of
`4294967294` times and then pushing 0 once; its length is `u32::MAX`. -/
def bigHeap : BinaryHeap Nat := ⟨⟨4294967295, bigCells⟩⟩

/-- The all-ones heap state of length `n`: what `n` pushes of 1 build. -/
def onesCells (n : Nat) : List (Children Nat) :=
  List.replicate (n / 2) (Children.new (some 1) (some 1)) ++
    (if n % 2 = 1 then [Children.new (some 1) none] else [])

/-- The heap whose cells are `onesCells n`. -/
def onesHeap (n : Nat) : BinaryHeap Nat := ⟨⟨n, onesCells n⟩⟩

theorem bigList_length : bigList.length = 4294967295 := by
  unfold bigList
  rw [List.length_append, List.length_replicate]
  rfl

theorem bigList_getElem?_lt {i : Nat} (h : i < 4294967294) :
    bigList[i]? = some 1 := by
  unfold bigList
  rw [List.getElem?_append_left (by rw [List.length_replicate]; exact h),
    List.getElem?_replicate_of_lt h]

theorem bigList_getElem?_last : bigList[(4294967294 : Nat)]? = some 0 := by
  unfold bigList
  rw [List.getElem?_append_right (by rw [List.length_replicate]),
    List.length_replicate, Nat.sub_self]
  rfl

theorem bigWF : WF bigHeap.elements bigList := by
  refine ⟨?_, ?_, ?_⟩
  · show (4294967295 : Nat) = bigList.length
    rw [bigList_length]
  · rw [bigList_length]
    have hU : u32MAX = 4294967295 := rfl
    omega
  · show flattenCells bigCells
      = bigList.map some ++ List.replicate (bigList.length % 2) none
    rw [bigList_length]
    unfold bigCells bigList
    rw [flattenCells_append, flattenCells_replicate_same,
      show (2 * 2147483647 : Nat) = 4294967294 by norm_num,
      List.map_append, List.map_replicate,
      show (4294967295 : Nat) % 2 = 1 by norm_num, List.append_assoc]
    rfl

theorem onesList_aux (n : Nat) :
    flattenCells (onesCells n) =
      List.replicate n (some (1 : Nat)) ++ List.replicate (n % 2) none := by
  by_cases hp : n % 2 = 1
  · obtain ⟨k, hk⟩ : ∃ k, n = 2 * k + 1 := ⟨n / 2, by omega⟩
    subst hk
    unfold onesCells
    rw [if_pos hp, show (2 * k + 1) / 2 = k by omega,
      show (2 * k + 1) % 2 = 1 by omega, flattenCells_append,
      flattenCells_replicate_same, List.replicate_succ', List.append_assoc]
    rfl
  · obtain ⟨k, hk⟩ : ∃ k, n = 2 * k := ⟨n / 2, by omega⟩
    subst hk
    unfold onesCells
    rw [if_neg hp, List.append_nil, show (2 * k) / 2 = k by omega,
      show (2 * k) % 2 = 0 by omega, flattenCells_replicate_same,
      List.replicate_zero, List.append_nil]

theorem onesWF (n : Nat) (hn : n ≤ u32MAX) :
    WF (ChildrenVector.mk n (onesCells n)) (List.replicate n (1 : Nat)) := by
  refine ⟨?_, ?_, ?_⟩
  · show n = (List.replicate n (1 : Nat)).length
    rw [List.length_replicate]
  · rw [List.length_replicate]
    exact hn
  · show flattenCells (onesCells n)
      = (List.replicate n (1 : Nat)).map some
        ++ List.replicate ((List.replicate n (1 : Nat)).length % 2) none
    rw [List.map_replicate, List.length_replicate]
    exact onesList_aux n

theorem onesCells_push_to (n : Nat) :
    (ChildrenVector.mk (n + 1) (onesCells n) : ChildrenVector Nat).push_to n
      (some 1) = ⟨n + 1, onesCells (n + 1)⟩ := by
  by_cases hp : n % 2 = 1
  · obtain ⟨k, hk⟩ : ∃ k, n = 2 * k + 1 := ⟨n / 2, by omega⟩
    subst hk
    have hcells : onesCells (2 * k + 1)
        = List.replicate k (Children.new (some (1 : Nat)) (some 1))
          ++ [Children.new (some 1) none] := by
      unfold onesCells
      rw [if_pos hp, show (2 * k + 1) / 2 = k by omega]
    have hidx : (onesCells (2 * k + 1))[(2 * k + 1) / 2]?
        = some (Children.new (some 1) none) := by
      rw [hcells, show (2 * k + 1) / 2 = k by omega,
        List.getElem?_append_right (by rw [List.length_replicate]),
        List.length_replicate, Nat.sub_self]
      rfl
    have hnext : onesCells (2 * k + 1 + 1)
        = List.replicate k (Children.new (some (1 : Nat)) (some 1))
          ++ [Children.new (some 1) (some 1)] := by
      unfold onesCells
      rw [if_neg (by omega), List.append_nil,
        show (2 * k + 1 + 1) / 2 = k + 1 by omega, List.replicate_succ']
    simp only [ChildrenVector.push_to, get_child_mut_eq, hidx]
    simp only [ChildrenVector.set_child, get_children_storage_index,
      get_child_pos, hidx]
    rw [show (2 * k + 1) % 2 = 1 by omega,
      show (Children.new (some (1 : Nat)) none).set_child 1 (some 1)
        = Children.new (some 1) (some 1) from rfl,
      hcells, show (2 * k + 1) / 2 = k by omega, set_replicate_last, hnext]
  · obtain ⟨k, hk⟩ : ∃ k, n = 2 * k := ⟨n / 2, by omega⟩
    subst hk
    have hcells : onesCells (2 * k)
        = List.replicate k (Children.new (some (1 : Nat)) (some 1)) := by
      unfold onesCells
      rw [if_neg hp, List.append_nil, show (2 * k) / 2 = k by omega]
    have hidx : (onesCells (2 * k))[(2 * k) / 2]? = none := by
      rw [hcells]
      exact List.getElem?_eq_none (by rw [List.length_replicate]; omega)
    have hnext : onesCells (2 * k + 1)
        = List.replicate k (Children.new (some (1 : Nat)) (some 1))
          ++ [Children.new (some 1) none] := by
      unfold onesCells
      rw [if_pos (by omega), show (2 * k + 1) / 2 = k by omega]
    simp only [ChildrenVector.push_to, get_child_mut_eq, hidx]
    rw [hcells, hnext]

theorem cv_push_ones (n : Nat) (hn : n < u32MAX) :
    (ChildrenVector.mk n (onesCells n) : ChildrenVector Nat).push 1
      = some ⟨n + 1, onesCells (n + 1)⟩ := by
  unfold ChildrenVector.push
  rw [if_pos (show (ChildrenVector.mk n (onesCells n)
    : ChildrenVector Nat).len < u32MAX from hn)]
  exact congrArg some (onesCells_push_to n)

theorem ones_sift_up (n : Nat) (hn : n + 1 ≤ u32MAX) :
    sift_up_loop n
      (ChildrenVector.mk (n + 1) (onesCells (n + 1)) : ChildrenVector Nat) n
      = some ⟨n + 1, onesCells (n + 1)⟩ := by
  cases n with
  | zero => exact sift_up_loop_stop 0 _ 0 (by omega)
  | succ m =>
    apply sift_up_loop_stop_le _ _ _ (by omega)
    have hwf : WF (ChildrenVector.mk (m + 1 + 1) (onesCells (m + 1 + 1)))
        (List.replicate (m + 1 + 1) (1 : Nat)) := onesWF (m + 1 + 1) (by omega)
    rw [hwf.get_eq, hwf.get_eq, List.getElem?_replicate_of_lt (by omega),
      List.getElem?_replicate_of_lt (by omega)]
    exact optLe_refl _

theorem ones_push (n : Nat) (hn : n < u32MAX) :
    (onesHeap n).push 1 = some (onesHeap (n + 1)) := by
  unfold BinaryHeap.push
  have hpush : (onesHeap n).elements.push 1
      = some (ChildrenVector.mk (n + 1) (onesCells (n + 1))) :=
    cv_push_ones n hn
  simp only [hpush]
  show (sift_up_loop (onesHeap n).len
      (ChildrenVector.mk (n + 1) (onesCells (n + 1))) (onesHeap n).len).map
      BinaryHeap.mk = some (onesHeap (n + 1))
  rw [show (onesHeap n).len = n from rfl, ones_sift_up n (by omega)]
  rfl

theorem onesHeap_zero : onesHeap 0 = BinaryHeap.new := rfl

theorem ones_reach (n : Nat) (hn : n ≤ u32MAX) : Reachable (onesHeap n) := by
  induction n with
  | zero =>
    rw [onesHeap_zero]
    exact Relation.ReflTransGen.refl
  | succ m ih =>
    exact Relation.ReflTransGen.tail (ih (by omega))
      (Step.push 1 _ _ (ones_push m (by omega)))

/-- Reduction of `push_to` in its fresh-cell branch; kept as a lemma over
variables so that instantiating it at a concrete state never makes the
kernel evaluate the state's cell list. -/
theorem push_to_of_none (cv : ChildrenVector α) (i : Nat) (v : Option α)
    (h : cv.get_child_mut i = none) :
    cv.push_to i v
      = { cv with children := cv.children ++ [Children.new v none] } := by
  unfold ChildrenVector.push_to
  rw [h]

theorem onesCells_big_push_to :
    (ChildrenVector.mk 4294967295 (onesCells 4294967294)
      : ChildrenVector Nat).push_to 4294967294 (some 0)
      = ⟨4294967295, bigCells⟩ := by
  have hcells : onesCells 4294967294
      = List.replicate 2147483647 (Children.new (some (1 : Nat)) (some 1)) := by
    unfold onesCells
    rw [if_neg (by norm_num), List.append_nil,
      show (4294967294 : Nat) / 2 = 2147483647 by norm_num]
  have hmut : (ChildrenVector.mk 4294967295 (onesCells 4294967294)
      : ChildrenVector Nat).get_child_mut 4294967294 = none := by
    apply get_child_mut_eq_none
    show (onesCells 4294967294).length ≤ 4294967294 / 2
    rw [hcells, List.length_replicate]
  rw [push_to_of_none _ _ _ hmut, hcells]
  rfl

theorem big_elements_push :
    (ChildrenVector.mk 4294967294 (onesCells 4294967294)
      : ChildrenVector Nat).push 0 = some ⟨4294967295, bigCells⟩ := by
  unfold ChildrenVector.push
  rw [if_pos (show (ChildrenVector.mk 4294967294 (onesCells 4294967294)
    : ChildrenVector Nat).len < u32MAX by decide)]
  exact congrArg some onesCells_big_push_to

theorem big_push : (onesHeap 4294967294).push 0 = some bigHeap := by
  unfold BinaryHeap.push
  have hpush : (onesHeap 4294967294).elements.push 0
      = some (ChildrenVector.mk 4294967295 bigCells) := big_elements_push
  simp only [hpush]
  show (sift_up_loop (onesHeap 4294967294).len
      (ChildrenVector.mk 4294967295 bigCells) (onesHeap 4294967294).len).map
      BinaryHeap.mk = some bigHeap
  rw [show (onesHeap 4294967294).len = 4294967294 from rfl]
  have hwf : WF (ChildrenVector.mk 4294967295 bigCells) bigList := bigWF
  rw [sift_up_loop_stop_le _ _ _ (by norm_num) (by
    rw [hwf.get_eq, hwf.get_eq, bigList_getElem?_last,
      bigList_getElem?_lt (by norm_num)]
    rfl)]
  rfl

theorem reachable_bigHeap : Reachable bigHeap :=
  Relation.ReflTransGen.tail (ones_reach 4294967294 (by decide))
    (Step.push 0 _ _ big_push)

/-- Element list of the overflow heap immediately after `swap_remove(0)`:
all ones except a single zero at position `p` (length `4294967294`). -/
def zeroAt (p : Nat) : List Nat := (List.replicate 4294967294 (1 : Nat)).set p 0

theorem zeroAt_length (p : Nat) : (zeroAt p).length = 4294967294 := by
  unfold zeroAt
  rw [List.length_set, List.length_replicate]

theorem zeroAt_getElem?_self {p : Nat} (hp : p < 4294967294) :
    (zeroAt p)[p]? = some 0 := by
  unfold zeroAt
  exact getElem?_set_self_of_lt _ _ _ (by rw [List.length_replicate]; exact hp)

theorem zeroAt_getElem?_ne {p i : Nat} (hi : i < 4294967294) (hne : i ≠ p) :
    (zeroAt p)[i]? = some 1 := by
  unfold zeroAt
  rw [List.getElem?_set_ne (by omega), List.getElem?_replicate_of_lt hi]

theorem zeroAt_swapL {p c : Nat} (hp : p < 4294967294) (hc : c < 4294967294)
    (hne : c ≠ p) : swapL (zeroAt p) c p = zeroAt c := by
  have hsw := swapL_getElem? (zeroAt p)
    (show c < (zeroAt p).length by rw [zeroAt_length]; exact hc)
    (show p < (zeroAt p).length by rw [zeroAt_length]; exact hp)
  apply List.ext_getElem?
  intro i
  rcases Nat.lt_or_ge i 4294967294 with hi | hi
  · rw [hsw i]
    by_cases hip : i = p
    · subst hip
      rw [if_pos rfl, zeroAt_getElem?_ne hc hne,
        zeroAt_getElem?_ne hi (by omega)]
    · rw [if_neg hip]
      by_cases hic : i = c
      · subst hic
        rw [if_pos rfl, zeroAt_getElem?_self hp, zeroAt_getElem?_self hc]
      · rw [if_neg hic, zeroAt_getElem?_ne hi hip, zeroAt_getElem?_ne hi hic]
  · rw [List.getElem?_eq_none (by rw [length_swapL, zeroAt_length]; omega),
      List.getElem?_eq_none (by rw [zeroAt_length]; omega)]

theorem big_after_swap_remove :
    (swapL bigList 0 (bigList.length - 1)).dropLast = zeroAt 0 := by
  rw [show bigList.length - 1 = 4294967294 by rw [bigList_length]]
  apply List.ext_getElem?
  intro i
  rcases Nat.lt_or_ge i 4294967294 with hi | hi
  · rw [List.getElem?_dropLast, length_swapL, bigList_length,
      if_pos (by omega),
      swapL_getElem? bigList (by rw [bigList_length]; omega)
        (by rw [bigList_length]; omega) i,
      if_neg (by omega)]
    by_cases hi0 : i = 0
    · subst hi0
      rw [if_pos rfl, bigList_getElem?_last, zeroAt_getElem?_self (by omega)]
    · rw [if_neg hi0, bigList_getElem?_lt (by omega),
        zeroAt_getElem?_ne hi (by omega)]
  · rw [List.getElem?_dropLast, length_swapL, bigList_length,
      if_neg (by omega),
      List.getElem?_eq_none (by rw [zeroAt_length]; omega)]

/-- One descent iteration of the overflow `pop`: the zero at position `pos`
is below both its children (two ones), the right child wins the tie, and
the swap moves the zero to position `2 * pos + 2`. -/
theorem sift_down_zeroAt_step (fuel pos : Nat) (cv : ChildrenVector Nat)
    (hlt : pos < 2147483646) (hwf : WF cv (zeroAt pos)) :
    ∃ cv₂, sift_down_loop 4294967294 (fuel + 1) cv pos
        = sift_down_loop 4294967294 fuel cv₂ (2 * pos + 1 + 1) ∧
      WF cv₂ (zeroAt (2 * pos + 1 + 1)) := by
  have hU : u32MAX = 4294967295 := rfl
  have hL : (zeroAt pos).length = 4294967294 := zeroAt_length pos
  obtain ⟨cv₂, hsw, hwf₂⟩ := hwf.swap_some
    (show 2 * pos + 1 + 1 < (zeroAt pos).length by rw [hL]; omega)
    (show pos < (zeroAt pos).length by rw [hL]; omega)
  have hselp : 2 * pos + 1 + 1 < 4294967294 ∧
      optLe (zeroAt pos)[2 * pos + 1]? (zeroAt pos)[2 * pos + 1 + 1]?
        = true := by
    refine ⟨by omega, ?_⟩
    rw [zeroAt_getElem?_ne (by omega) (by omega),
      zeroAt_getElem?_ne (by omega) (by omega)]
    rfl
  have hstop : ¬ optLe (zeroAt pos)[2 * pos + 1 + 1]?
      (zeroAt pos)[pos]? = true := by
    rw [zeroAt_getElem?_ne (by omega) (by omega),
      zeroAt_getElem?_self (by omega)]
    decide
  refine ⟨cv₂, ?_, ?_⟩
  · rw [sift_down_loop_succ _ _ _ _ (by omega) (by omega)]
    simp only [hwf.get_eq]
    rw [if_pos hselp, if_neg hstop, hsw]
  · rw [zeroAt_swapL (by omega) (by omega) (by omega)] at hwf₂
    exact hwf₂

/-- The last two iterations of the overflow descent: from position
`2147483646` the right child `4294967294` is out of range, the zero is
swapped with the left child `4294967293`, and the next `2 * pos + 1`
computation exceeds `u32MAX`. -/
theorem sift_down_zeroAt_last (fuel : Nat) (cv : ChildrenVector Nat)
    (hwf : WF cv (zeroAt 2147483646)) :
    sift_down_loop 4294967294 (fuel + 1) cv 2147483646 = none := by
  have hU : u32MAX = 4294967295 := rfl
  have hL : (zeroAt 2147483646).length = 4294967294 := zeroAt_length _
  obtain ⟨cv₂, hsw, hwf₂⟩ := hwf.swap_some
    (show 2 * 2147483646 + 1 < (zeroAt 2147483646).length by rw [hL]; omega)
    (show (2147483646 : Nat) < (zeroAt 2147483646).length by rw [hL]; omega)
  have hselp : ¬ (2 * 2147483646 + 1 + 1 < 4294967294 ∧
      optLe (zeroAt 2147483646)[2 * 2147483646 + 1]?
        (zeroAt 2147483646)[2 * 2147483646 + 1 + 1]? = true) :=
    fun hcon => absurd hcon.1 (by omega)
  have hstop : ¬ optLe (zeroAt 2147483646)[2 * 2147483646 + 1]?
      (zeroAt 2147483646)[(2147483646 : Nat)]? = true := by
    rw [zeroAt_getElem?_ne (by omega) (by omega),
      zeroAt_getElem?_self (by omega)]
    decide
  rw [sift_down_loop_succ _ _ _ _ (by omega) (by omega)]
  simp only [hwf.get_eq]
  rw [if_neg hselp, if_neg hstop, hsw]
  show sift_down_loop 4294967294 fuel cv₂ (2 * 2147483646 + 1) = none
  exact sift_down_loop_overflow _ _ _ _ (by omega)

/-- The overflow descent never returns: starting from the zero at an even
position `pos`, the loop keeps doubling `pos + 2` (the measure `2 ^ m`
bounds the remaining iterations) until `2 * pos + 1` exceeds `u32MAX` and
the checked computation panics. -/
theorem sift_down_zeroAt_none (m : Nat) :
    ∀ (fuel pos : Nat) (cv : ChildrenVector Nat),
    pos % 2 = 0 → WF cv (zeroAt pos) →
    2147483648 ≤ (pos + 2) * 2 ^ m → m < fuel →
    sift_down_loop 4294967294 fuel cv pos = none := by
  have hU : u32MAX = 4294967295 := rfl
  induction m with
  | zero =>
    intro fuel pos cv hev hwf hmeas hfuel
    rw [pow_zero, mul_one] at hmeas
    rcases Nat.lt_or_ge pos 2147483648 with hmid | hbig
    · have hpos : pos = 2147483646 := by omega
      subst hpos
      cases fuel with
      | zero => omega
      | succ f => exact sift_down_zeroAt_last f cv hwf
    · exact sift_down_loop_overflow _ _ _ _ (by omega)
  | succ m ih =>
    intro fuel pos cv hev hwf hmeas hfuel
    rcases Nat.lt_or_ge pos 2147483646 with hlt | hge
    · cases fuel with
      | zero => omega
      | succ f =>
        obtain ⟨cv₂, hstep, hwf₂⟩ := sift_down_zeroAt_step f pos cv hlt hwf
        rw [hstep]
        refine ih f (2 * pos + 1 + 1) cv₂ (by omega) hwf₂ ?_ (by omega)
        have h2 : (2 * pos + 1 + 1 + 2) * 2 ^ m = (pos + 2) * 2 ^ (m + 1) := by
          ring
        rw [h2]
        exact hmeas
    · rcases Nat.lt_or_ge pos 2147483648 with hmid | hbig
      · have hpos : pos = 2147483646 := by omega
        subst hpos
        cases fuel with
        | zero => omega
        | succ f => exact sift_down_zeroAt_last f cv hwf
      · exact sift_down_loop_overflow _ _ _ _ (by omega)

/-- Reduction of `pop` in its panicking-sift branch; kept as a lemma over
variables so that instantiating it at a concrete state never makes the
kernel evaluate the state's cell list. -/
theorem BinaryHeap.pop_none_of [LinearOrder α] {h : BinaryHeap α}
    {elem : Option α} {cv₂ : ChildrenVector α}
    (hsr : h.elements.swap_remove 0 = some (elem, cv₂))
    (hsd : (BinaryHeap.mk cv₂ : BinaryHeap α).sift_down 0 = none) :
    h.pop = none := by
  unfold BinaryHeap.pop
  simp only [hsr, hsd]

theorem bigHeap_pop : bigHeap.pop = none := by
  obtain ⟨cv₂, hsr, hwf₂⟩ := bigWF.swap_remove_eq 0
    (by rw [bigList_length]; omega)
  rw [big_after_swap_remove] at hwf₂
  have hsd : (BinaryHeap.mk cv₂ : BinaryHeap Nat).sift_down 0 = none := by
    show (sift_down_loop (BinaryHeap.mk cv₂ : BinaryHeap Nat).len
      (BinaryHeap.mk cv₂ : BinaryHeap Nat).len cv₂ 0).map BinaryHeap.mk = none
    rw [show (BinaryHeap.mk cv₂ : BinaryHeap Nat).len = 4294967294 by
      show cv₂.len = 4294967294
      rw [hwf₂.len_eq, zeroAt_length]]
    rw [sift_down_zeroAt_none 31 4294967294 0 cv₂ rfl hwf₂ (by norm_num)
      (by norm_num)]
    rfl
  exact BinaryHeap.pop_none_of hsr hsd

/-- C3: refuted on the code as given — `pop()` does not meet its contract on
every heap the API can build. `push` admits heaps of up to `u32::MAX`
elements, and on the reachable heap `bigHeap` (pushing 1 a total of
`4294967294` times, then pushing 0 once; length `u32::MAX`, hence
non-empty) `pop()` does not return at all: after `swap_remove(0)` installs
the 0 at the root, the `sift_down` descent doubles its position past `2^31`
and the checked `u32` computation `2 * pos + 1` (mod.rs line 165) exceeds
`u32::MAX`, so the operation panics instead of returning the greatest
element (a wrapping build would instead compare and swap positions that are
not parent and child). On heaps of length at most `2^31 + 1` the claimed
contract is proved by `pop_spec`. -/
theorem C3_pop_overflow :
    Reachable bigHeap ∧ bigHeap.len = 4294967295 ∧ bigHeap.pop = none :=
  ⟨reachable_bigHeap, rfl, bigHeap_pop⟩

/-- The spec's peek_mut round-trip example: push 1, 5, 2; set the root to 0
through the guard; drop the guard; drain the heap by popping. -/
def peek_mut_round_trip : Option (List Nat) :=
  ((((BinaryHeap.new : BinaryHeap Nat).push 1).bind (fun h => h.push 5)).bind
    (fun h => h.push 2)).bind (fun h =>
      (((h.peek_mut).bind (fun g => g.write 0)).bind PeekMut.drop).map
        BinaryHeap.drain)

/-- The spec's explicit-consumption example: push 1, 5, 2; consume the guard
through `PeekMut::pop`; return the removed value and the remaining drain. -/
def peek_mut_consume : Option (Nat × List Nat) :=
  ((((BinaryHeap.new : BinaryHeap Nat).push 1).bind (fun h => h.push 5)).bind
    (fun h => h.push 2)).bind (fun h =>
      ((h.peek_mut).bind PeekMut.pop).map (fun p => (p.1, p.2.drain)))

/-- C6 counterexample: in the claim's example (push 1, 5, 2; set the root to
0 through the guard; drop the guard) the subsequent pops yield 2, 1, 0 — not
5, 2, 0 as claimed: the guard's root mutation overwrites the current maximum
5, so 5 cannot be produced afterwards. -/
theorem C6_counterexample :
    peek_mut_round_trip = some [2, 1, 0] ∧
    peek_mut_round_trip ≠ some [5, 2, 0] := by
  decide

/-- C6 (amended): a guard dropped without explicit consumption still has its
`sift` flag set and its release performs `sift_down(0)`; whenever that sift
returns — which it always does on heaps of length at most `2^31`, while
beyond that the `u32` index arithmetic of `sift_down` can overflow and
abort — the heap invariant is restored after any root mutation (in the
claimed example the pops then yield 2, 1, 0, not 5, 2, 0); explicitly
consuming the guard through `PeekMut::pop` removes and returns the root
exactly as `pop()` would, suppressing the automatic resift. -/
theorem C6_peek_mut_guard [LinearOrder α] (h : BinaryHeap α)
    (hr : Reachable h) (hne : h.len ≠ 0) :
    (∃ g, h.peek_mut = some g ∧
      ∀ g', GuardReach g g' →
        g'.sift = true ∧
        g'.drop = g'.heap.sift_down 0 ∧
        (∀ h'', g'.drop = some h'' →
          ∃ l'', WF h''.elements l'' ∧ IsHeap l'') ∧
        (g'.heap.len ≤ 2147483648 →
          ∃ h'' l'', g'.drop = some h'' ∧ WF h''.elements l'' ∧ IsHeap l'') ∧
        (∀ x h₂, PeekMut.pop g' = some (x, h₂) ↔
          g'.heap.pop = some (some x, h₂)) ∧
        (g'.heap.len ≤ 2147483648 →
          ∃ x h₂, PeekMut.pop g' = some (x, h₂))) ∧
    peek_mut_round_trip = some [2, 1, 0] ∧
    peek_mut_consume = some (5, [2, 1]) := by
  have hemp : h.is_empty = false := by
    unfold BinaryHeap.is_empty ChildrenVector.is_empty
    exact beq_eq_false_iff_ne.mpr hne
  have hpm : h.peek_mut = some ⟨h, true⟩ := by
    unfold BinaryHeap.peek_mut
    rw [hemp]
    simp
  refine ⟨⟨⟨h, true⟩, hpm, ?_⟩, by decide, by decide⟩
  intro g' hg'
  have hgi' := (Inv.ginv_of_peek_mut hr.inv hpm).guard_reach hg'
  refine ⟨hgi'.1, ?_, ?_, ?_, ?_, ?_⟩
  · unfold PeekMut.drop
    rw [hgi'.1]
    simp
  · intro h'' hd
    obtain ⟨l'', hwf'', hheap'', -⟩ := hgi'.drop_partial hd
    exact ⟨l'', hwf'', hheap''⟩
  · intro hbound
    obtain ⟨cv', l', hd, hwf', hheap', -⟩ := hgi'.drop_spec hbound
    exact ⟨⟨cv'⟩, l', hd, hwf', hheap'⟩
  · intro x h₂
    exact PeekMut.pop_eq_heap_pop g' x h₂
  · intro hbound
    obtain ⟨x, cv', l', hp, -, -, -, -⟩ := hgi'.peek_pop_spec (by omega)
    exact ⟨x, ⟨cv'⟩, hp⟩

theorem C6_peek_mut_guard_witness :
    (∃ g, exHeap1.peek_mut = some g ∧
      ∀ g', GuardReach g g' →
        g'.sift = true ∧
        g'.drop = g'.heap.sift_down 0 ∧
        (∀ h'', g'.drop = some h'' →
          ∃ l'', WF h''.elements l'' ∧ IsHeap l'') ∧
        (g'.heap.len ≤ 2147483648 →
          ∃ h'' l'', g'.drop = some h'' ∧ WF h''.elements l'' ∧ IsHeap l'') ∧
        (∀ x h₂, PeekMut.pop g' = some (x, h₂) ↔
          g'.heap.pop = some (some x, h₂)) ∧
        (g'.heap.len ≤ 2147483648 →
          ∃ x h₂, PeekMut.pop g' = some (x, h₂))) ∧
    peek_mut_round_trip = some [2, 1, 0] ∧
    peek_mut_consume = some (5, [2, 1]) :=
  C6_peek_mut_guard exHeap1 reachable_exHeap1 (by decide)

/-- What the shared iterator yields between cursors `b` and `e`, on a heap
whose elements satisfy the packing invariant for `l`. -/
theorem Iter.collect_eq_take_drop [LinearOrder α] {cv : ChildrenVector α} {l : List α}
    (hwf : WF cv l) :
    ∀ (n b e : Nat), e ≤ l.length → n = e - b →
      Iter.collect cv n ⟨b, e⟩ = (l.take e).drop b := by
  intro n
  induction n with
  | zero =>
    intro b e he hn
    unfold Iter.collect
    symm
    apply List.drop_eq_nil_of_le
    rw [List.length_take]
    omega
  | succ n ih =>
    intro b e he hn
    have hbe : b < e := by omega
    have hbL : b < l.length := by omega
    obtain ⟨x, hx⟩ : ∃ x, l[b]? = some x := ⟨_, List.getElem?_eq_getElem hbL⟩
    have hnext : Iter.next cv ⟨b, e⟩ = (some x, ⟨b + 1, e⟩) := by
      unfold Iter.next Iter.nth
      simp only [Nat.zero_mod, Nat.add_zero]
      rw [if_neg (by omega), cv.get_child_eq, hwf.flatten_getElem?,
        if_pos (by omega), hx]
      rfl
    unfold Iter.collect
    rw [hnext]
    show x :: Iter.collect cv n ⟨b + 1, e⟩ = _
    rw [ih (b + 1) e he (by omega)]
    have hbt : b < (l.take e).length := by
      rw [List.length_take]
      omega
    rw [List.drop_eq_getElem_cons hbt]
    congr 1
    have htake : (l.take e)[b]? = l[b]? := by
      rw [List.getElem?_take, if_pos hbe]
    have h2 : some (l.take e)[b] = some x := by
      rw [← List.getElem?_eq_getElem hbt, htake, hx]
    exact (Option.some_injective _ h2).symm

/-- What the exclusive iterator yields between cursors `b` and `e`; it never
hits its out-of-bounds panic. -/
theorem IterMut.collect_eq_some_take_drop [LinearOrder α] {cv : ChildrenVector α}
    {l : List α} (hwf : WF cv l) :
    ∀ (n b e : Nat), e ≤ l.length → n = e - b →
      IterMut.collect cv n ⟨b, e⟩ = some ((l.take e).drop b) := by
  intro n
  induction n with
  | zero =>
    intro b e he hn
    unfold IterMut.collect
    rw [List.drop_eq_nil_of_le (by rw [List.length_take]; omega)]
  | succ n ih =>
    intro b e he hn
    have hbe : b < e := by omega
    have hbL : b < l.length := by omega
    obtain ⟨x, hx⟩ : ∃ x, l[b]? = some x := ⟨_, List.getElem?_eq_getElem hbL⟩
    have hnext : IterMut.next cv ⟨b, e⟩ = some (some x, ⟨b + 1, e⟩) := by
      unfold IterMut.next IterMut.nth
      simp only [Nat.zero_mod, Nat.add_zero]
      rw [if_neg (by omega)]
      rw [show IterMut.get_mut cv b = cv.get_mut b from rfl, hwf.get_mut_eq, hx]
    unfold IterMut.collect
    rw [hnext]
    show (IterMut.collect cv n ⟨b + 1, e⟩).map (x :: ·) = _
    rw [ih (b + 1) e he (by omega)]
    have hbt : b < (l.take e).length := by
      rw [List.length_take]
      omega
    rw [List.drop_eq_getElem_cons hbt]
    have htake : (l.take e)[b]? = l[b]? := by
      rw [List.getElem?_take, if_pos hbe]
    have h2 : some (l.take e)[b] = some x := by
      rw [← List.getElem?_eq_getElem hbt, htake, hx]
    rw [(Option.some_injective _ h2)]
    rfl

/-- C8: an iterator (shared or exclusive) constructed over a reachable heap
of length L yields exactly the L elements in logical-index order 0..L, its
`count` and `size_hint` equal the remaining number of elements of that
construction-time length, and a push performed through another handle after
construction affects neither the yielded count nor `count`/`size_hint`. -/
theorem C8_iterator [LinearOrder α] (h : BinaryHeap α) (hr : Reachable h) :
    ∃ l, WF h.elements l ∧ l.length = h.len ∧
      Iter.collect h.elements (Iter.new h.elements).remaining
        (Iter.new h.elements) = l ∧
      (Iter.new h.elements).count = h.len ∧
      (Iter.new h.elements).size_hint = (h.len, some h.len) ∧
      IterMut.collect h.elements (IterMut.new h.elements).remaining
        (IterMut.new h.elements) = some l ∧
      (IterMut.new h.elements).count = h.len ∧
      (IterMut.new h.elements).size_hint = (h.len, some h.len) ∧
      (∀ v h', h.push v = some h' →
        (Iter.collect h'.elements (Iter.new h.elements).remaining
          (Iter.new h.elements)).length = h.len ∧
        (Iter.new h.elements).count = h.len) := by
  obtain ⟨l, hwf, hheap⟩ := hr.inv
  have hlen : h.len = l.length := hwf.len_eq
  have hrem : (Iter.new h.elements).remaining = l.length := by
    show h.elements.len - 0 = l.length
    rw [hwf.len_eq]
    omega
  have hremM : (IterMut.new h.elements).remaining = l.length := by
    show h.elements.len - 0 = l.length
    rw [hwf.len_eq]
    omega
  have hnew : (Iter.new h.elements : Iter) = ⟨0, l.length⟩ := by
    show (⟨0, h.elements.len⟩ : Iter) = _
    rw [hwf.len_eq]
  have hnewM : (IterMut.new h.elements : IterMut) = ⟨0, l.length⟩ := by
    show (⟨0, h.elements.len⟩ : IterMut) = _
    rw [hwf.len_eq]
  refine ⟨l, hwf, hlen.symm, ?_, ?_, ?_, ?_, ?_, ?_, ?_⟩
  · rw [hrem, hnew, Iter.collect_eq_take_drop hwf l.length 0 l.length (le_refl _)
      (by omega), List.take_length, List.drop_zero]
  · show (Iter.new h.elements).remaining = h.len
    rw [hrem, hlen]
  · show ((Iter.new h.elements).remaining, some (Iter.new h.elements).remaining)
      = (h.len, some h.len)
    rw [hrem, hlen]
  · rw [hremM, hnewM, IterMut.collect_eq_some_take_drop hwf l.length 0 l.length (le_refl _)
      (by omega), List.take_length, List.drop_zero]
  · show (IterMut.new h.elements).remaining = h.len
    rw [hremM, hlen]
  · show ((IterMut.new h.elements).remaining,
      some (IterMut.new h.elements).remaining) = (h.len, some h.len)
    rw [hremM, hlen]
  · intro v h' hpush
    refine ⟨?_, by show (Iter.new h.elements).remaining = h.len; rw [hrem, hlen]⟩
    by_cases hcap : l.length < u32MAX
    · obtain ⟨cv', l', hp, hwf', _, hlen'⟩ := push_spec hwf hheap v hcap
      have hpush' : (BinaryHeap.mk h.elements : BinaryHeap α).push v
          = some h' := hpush
      rw [hp] at hpush'
      have h2 := Option.some_injective _ hpush'
      subst h2
      rw [hrem, hnew, Iter.collect_eq_take_drop hwf' l.length 0 l.length
        (by omega) (by omega)]
      rw [List.length_drop, List.length_take, hlen]
      omega
    · exfalso
      have hn : h.elements.push v = none :=
        ChildrenVector.push_none v (by rw [hwf.len_eq]; omega)
      unfold BinaryHeap.push at hpush
      rw [hn] at hpush
      cases hpush

theorem C8_iterator_witness :
    ∃ l, WF exHeap2.elements l ∧ l.length = exHeap2.len ∧
      Iter.collect exHeap2.elements (Iter.new exHeap2.elements).remaining
        (Iter.new exHeap2.elements) = l ∧
      (Iter.new exHeap2.elements).count = exHeap2.len ∧
      (Iter.new exHeap2.elements).size_hint = (exHeap2.len, some exHeap2.len) ∧
      IterMut.collect exHeap2.elements
        (IterMut.new exHeap2.elements).remaining
        (IterMut.new exHeap2.elements) = some l ∧
      (IterMut.new exHeap2.elements).count = exHeap2.len ∧
      (IterMut.new exHeap2.elements).size_hint =
        (exHeap2.len, some exHeap2.len) ∧
      (∀ v h', exHeap2.push v = some h' →
        (Iter.collect h'.elements (Iter.new exHeap2.elements).remaining
          (Iter.new exHeap2.elements)).length = exHeap2.len ∧
        (Iter.new exHeap2.elements).count = exHeap2.len) :=
  C8_iterator exHeap2 reachable_exHeap2

/-- C10: a `PeekMut` guard is only constructed on a non-empty heap, and
through any sequence of writes performed while it holds exclusive access the
heap stays non-empty, so the `Deref`/`DerefMut` implementations never reach
their "PeekMut is only instantiated for non-empty heaps" panic branch. -/
theorem C10_deref_safe [LinearOrder α] (h : BinaryHeap α) (hr : Reachable h)
    (g g' : PeekMut α) (hpm : h.peek_mut = some g) (hgr : GuardReach g g') :
    g'.deref.isSome = true ∧ (g'.heap.elements.first_mut).isSome = true ∧
      g'.heap.len ≠ 0 ∧
      (∀ hh : BinaryHeap α, (hh.peek_mut).isSome = !hh.is_empty) := by
  have hgi' := (Inv.ginv_of_peek_mut hr.inv hpm).guard_reach hgr
  obtain ⟨hsift, l, hwf, hne, hD⟩ := hgi'
  have hl0 : 0 < l.length := List.length_pos.mpr hne
  refine ⟨?_, ?_, ?_, ?_⟩
  · show (g'.heap.elements.first).isSome = true
    rw [hwf.first_eq]
    exact getElem?_isSome_iff.mpr hl0
  · rw [hwf.first_mut_eq]
    exact getElem?_isSome_iff.mpr hl0
  · show g'.heap.elements.len ≠ 0
    rw [hwf.len_eq]
    omega
  · intro hh
    unfold BinaryHeap.peek_mut
    cases hb : hh.is_empty
    · rw [if_neg (show ¬(false = true) from Bool.false_ne_true)]
      rfl
    · rw [if_pos rfl]
      rfl

theorem C10_deref_safe_witness :
    (⟨exHeap1, true⟩ : PeekMut Nat).deref.isSome = true ∧
      ((⟨exHeap1, true⟩ : PeekMut Nat).heap.elements.first_mut).isSome = true ∧
      (⟨exHeap1, true⟩ : PeekMut Nat).heap.len ≠ 0 ∧
      (∀ hh : BinaryHeap Nat, (hh.peek_mut).isSome = !hh.is_empty) :=
  C10_deref_safe exHeap1 reachable_exHeap1 ⟨exHeap1, true⟩ ⟨exHeap1, true⟩
    (by decide) Relation.ReflTransGen.refl

end Ink
